import Mathlib

/-!
Shallow embedding of the subscription store of `src/data.rs` (rssbot).

Rust `HashMap`s are modelled as association lists (`List (κ × α)`) with
first-match lookup; `HashSet`s as `Finset`s.  The 64-bit hash function
`get_hash` (`DefaultHasher`) is an opaque deterministic function of the
hashed string, so every definition is parametrised over
`getHash : String → Nat`; no arithmetic is ever performed on hash values,
only equality tests, so this is faithful.  File I/O in `save` is modelled
by a write counter on the state; the serialized snapshot itself is the
pure value `DataStorageIn` used by `Database::open`.
-/

/-- Keyed first-match lookup, the model of `HashMap::get`. -/
def lookupKV {κ α : Type} [DecidableEq κ] : List (κ × α) → κ → Option α
  | [], _ => none
  | (k', v) :: rest, k => if k' = k then some v else lookupKV rest k

/-- Does the map contain the key (model of `HashMap::contains_key`). -/
def containsKV {κ α : Type} [DecidableEq κ] (l : List (κ × α)) (k : κ) : Bool :=
  l.any (fun p => p.1 = k)

/-- Model of `HashMap::insert` / in-place update through `entry`/`get_mut`:
replace the value at the key when present, otherwise add the binding. -/
def insertKV {κ α : Type} [DecidableEq κ] (k : κ) (v : α) (l : List (κ × α)) :
    List (κ × α) :=
  if containsKV l k then l.map (fun p => if p.1 = k then (k, v) else p)
  else (k, v) :: l

/-- Model of `HashMap::remove` (the returned value is read via `lookupKV`). -/
def eraseKV {κ α : Type} [DecidableEq κ] (k : κ) (l : List (κ × α)) :
    List (κ × α) :=
  l.filter (fun p => ¬ p.1 = k)

/-- Canonical ascending enumeration of a finite set, used to fix the
(unspecified) `HashSet` iteration order of the source.  Insertion sort is
used so that the function evaluates by kernel reduction. -/
def finSort {α : Type} [LinearOrder α] (s : Finset α) : List α :=
  Quotient.liftOn s.val (List.insertionSort (fun x y => x ≤ y))
    (fun l1 l2 hp =>
      List.eq_of_perm_of_sorted
        (((List.perm_insertionSort _ l1).trans hp).trans
          (List.perm_insertionSort _ l2).symm)
        (List.sorted_insertionSort _ l1) (List.sorted_insertionSort _ l2))

/-- Real `HashMap`s never hold two bindings of one key; states coming from
the Rust code always satisfy this well-formedness condition. -/
def NodupKeys {κ α : Type} (l : List (κ × α)) : Prop :=
  (l.map Prod.fst).Nodup

instance {κ α : Type} [DecidableEq κ] (l : List (κ × α)) : Decidable (NodupKeys l) := by
  unfold NodupKeys; infer_instance

/-- Modelled from the spec: an item of a parsed feed (title and ordered
items are consumed from the excluded fetching layer, §6 of the spec), with
an optional stable identifier, optional title and optional link.  The shape
matches the uses of `feed::Item` in `data.rs` (`item.id`, `item.title`,
`item.link`, all `Option<String>`). -/
structure Item where
  id : Option String
  title : Option String
  link : Option String
deriving DecidableEq

/-- Modelled from the spec: a parsed feed result, `feed::RSS` — a title and
an ordered sequence of items (only `rss.title` and `rss.items` are read by
`data.rs`). -/
structure RSS where
  title : String
  items : List Item
deriving DecidableEq

/-- `LinkPreview` of `data.rs`. -/
inductive LinkPreview where
  | Off : LinkPreview
  | On : LinkPreview
  | InstantView : Nat → LinkPreview
deriving DecidableEq

/-- `SubscriptionResult` of `data.rs`. -/
inductive SubscriptionResult where
  | NewlySubscribed : SubscriptionResult
  | LinkPreviewUpdated : SubscriptionResult
deriving DecidableEq

/-- The two error kinds produced by the store itself (`errors::ErrorKind`
members used in `data.rs`); persistence errors are not modelled since
`save` is modelled as always succeeding. -/
inductive ErrorKind where
  | AlreadySubscribed : ErrorKind
  | NotSubscribed : ErrorKind
deriving DecidableEq

instance {e a : Type} [DecidableEq e] [DecidableEq a] : DecidableEq (Except e a) :=
  fun x y => by
    cases x with
    | error u =>
      cases y with
      | error u' =>
        exact decidable_of_iff (u = u')
          ⟨fun h => by rw [h], fun h => by injection h⟩
      | ok b => exact isFalse (fun h => by injection h)
    | ok a1 =>
      cases y with
      | error u' => exact isFalse (fun h => by injection h)
      | ok b =>
        exact decidable_of_iff (a1 = b)
          ⟨fun h => by rw [h], fun h => by injection h⟩

/-- `Feed` of `data.rs`: link, title, error counter, subscriber set and the
bounded item-hash history. -/
structure Feed where
  link : String
  title : String
  error_count : Nat
  subscribers : Finset Int
  hash_list : List Nat
deriving DecidableEq

/-- `DatabaseInner` of `data.rs`: the feed registry keyed by feed id, the
subscriber index, the link-preview map, plus an instrumentation counter of
snapshot writes (each Rust `save()` call bumps it). -/
structure DatabaseInner where
  feeds : List (Nat × Feed)
  subscribers : List (Int × Finset Nat)
  lp_map : List ((Int × Nat) × LinkPreview)
  writeCount : Nat
deriving DecidableEq

/-- The serialized snapshot (`DataStorageOut`/`DataStorageIn`): the list of
feed records and the list of link-preview triples. -/
structure DataStorageIn where
  feeds : List Feed
  lp : List (Int × Nat × LinkPreview)
deriving DecidableEq

/-- `DatabaseInner::save`, as a state effect: one full snapshot write. -/
def saveFn (st : DatabaseInner) : DatabaseInner :=
  { st with writeCount := st.writeCount + 1 }

/-- The snapshot value written by `DatabaseInner::save` (the two field
lists of the JSON document). -/
def saveData (st : DatabaseInner) : DataStorageIn :=
  { feeds := st.feeds.map Prod.snd,
    lp := st.lp_map.map (fun p => (p.1.1, p.1.2, p.2)) }

/-- The fresh empty store built by `Database::create`. -/
def emptyDB : DatabaseInner :=
  { feeds := [], subscribers := [], lp_map := [], writeCount := 0 }

section StoreOps

variable (getHash : String → Nat)

/-- `gen_item_hash` of `data.rs`: hash the stable id when present, else
hash the concatenation of title and link (absent parts are empty). -/
def genItemHash (item : Item) : Nat :=
  match item.id with
  | some i => getHash i
  | none => getHash ((item.title.getD "") ++ (item.link.getD ""))

/-- `DatabaseInner::subscribe`.  Mirrors the source order: the subscriber
index entry is created/extended first, the `AlreadySubscribed` check reads
the untouched link-preview map, then the feed record is created or
extended, the link-preview entry is written and a snapshot is saved. -/
def subscribeFn (st : DatabaseInner) (s : Int) (rss_link : String)
    (rss : RSS) (link_preview : LinkPreview) :
    Except ErrorKind SubscriptionResult × DatabaseInner :=
  let fid := getHash rss_link
  let old := (lookupKV st.subscribers s).getD ∅
  let st1 := { st with subscribers := insertKV s (old ∪ {fid}) st.subscribers }
  if fid ∈ old ∧ lookupKV st1.lp_map (s, fid) = some link_preview then
    (Except.error ErrorKind.AlreadySubscribed, st1)
  else
    let feed := match lookupKV st1.feeds fid with
      | some f => f
      | none =>
        { link := rss_link, title := rss.title, error_count := 0,
          subscribers := ∅, hash_list := rss.items.map (genItemHash getHash) }
    let feed' := { feed with subscribers := insert s feed.subscribers }
    let st2 := { st1 with feeds := insertKV fid feed' st1.feeds }
    let oldLp := lookupKV st2.lp_map (s, fid)
    let st3 := { st2 with lp_map := insertKV (s, fid) link_preview st2.lp_map }
    let result := match oldLp with
      | none => SubscriptionResult.NewlySubscribed
      | some _ => SubscriptionResult.LinkPreviewUpdated
    (Except.ok result, saveFn st3)

/-- `DatabaseInner::unsubscribe`.  Note the source order: the subscriber
index is shrunk first, the feed record is cloned only after the subscriber
was removed from its subscriber set, and the index mutation is kept even on
the (invariant-breaking, normally unreachable) late error branches. -/
def unsubscribeFn (st : DatabaseInner) (s : Int) (rss_link : String) :
    Except ErrorKind Feed × DatabaseInner :=
  let fid := getHash rss_link
  match lookupKV st.subscribers s with
  | none => (Except.error ErrorKind.NotSubscribed, st)
  | some fs =>
    if fid ∈ fs then
      let fs' := fs.erase fid
      let st1 := { st with subscribers := insertKV s fs' st.subscribers }
      let st2 := if fs' = ∅ then
        { st1 with subscribers := eraseKV s st1.subscribers } else st1
      match lookupKV st2.feeds fid with
      | none => (Except.error ErrorKind.NotSubscribed, st2)
      | some feed =>
        if s ∈ feed.subscribers then
          let feed' := { feed with subscribers := feed.subscribers.erase s }
          let st3 := { st2 with feeds := insertKV fid feed' st2.feeds }
          let st4 := if feed'.subscribers = ∅ then
            { st3 with feeds := eraseKV fid st3.feeds } else st3
          let st5 := { st4 with lp_map := eraseKV (s, fid) st4.lp_map }
          (Except.ok feed', saveFn st5)
        else (Except.error ErrorKind.NotSubscribed, st2)
    else (Except.error ErrorKind.NotSubscribed, st)

/-- `DatabaseInner::get_subscribed_feeds`.  The outer `Option` is `none`
exactly when the Rust code panics (the index references a missing feed,
`&self.feeds[feed_id]`); the inner `Option` is the Rust return value.  The
unspecified `HashSet` iteration order is fixed to ascending feed ids. -/
def getSubscribedFeeds (st : DatabaseInner) (s : Int) :
    Option (Option (List Feed)) :=
  match lookupKV st.subscribers s with
  | none => some none
  | some fs =>
    match (finSort fs).mapM (fun fid => lookupKV st.feeds fid) with
    | none => none
    | some feedList => some (some feedList)

/-- `DatabaseInner::delete_subscriber`: unsubscribe from every followed
feed, ignoring individual results; a no-op for an unknown subscriber.
`none` models the panic inherited from `get_subscribed_feeds`. -/
def deleteSubscriberFn (st : DatabaseInner) (s : Int) : Option DatabaseInner :=
  match getSubscribedFeeds st s with
  | none => none
  | some none => some st
  | some (some feedList) =>
    some (feedList.foldl (fun st2 feed => (unsubscribeFn getHash st2 s feed.link).2) st)

end StoreOps

/-- One iteration of the loop in `DatabaseInner::update_subscriber`:
move subscriber `a` to `b` in the feed record of `fid` and carry the
link-preview entry over; `none` models the `unwrap` panic on a missing
feed. -/
def usStep (a b : Int) (st : DatabaseInner) (fid : Nat) : Option DatabaseInner :=
  match lookupKV st.feeds fid with
  | none => none
  | some feed =>
    let feed' := { feed with subscribers := insert b (feed.subscribers.erase a) }
    let st1 := { st with feeds := insertKV fid feed' st.feeds }
    let st2 := match lookupKV st1.lp_map (a, fid) with
      | none => st1
      | some v =>
        { st1 with lp_map := insertKV (b, fid) v (eraseKV (a, fid) st1.lp_map) }
    some st2

/-- `DatabaseInner::update_subscriber` (`from` = `a`, `to` = `b`): remove
`a`'s index entry (`unwrap`: `none` when absent), rewrite every followed
feed and carry link previews, then store the feed set under `b`.  The
unspecified `HashSet` iteration order is fixed to ascending feed ids. -/
def updateSubscriberFn (st : DatabaseInner) (a b : Int) : Option DatabaseInner :=
  match lookupKV st.subscribers a with
  | none => none
  | some fs =>
    let st1 := { st with subscribers := eraseKV a st.subscribers }
    ((finSort fs).foldlM (usStep a b) st1).map
      (fun st2 => { st2 with subscribers := insertKV b fs st2.subscribers })

section UpdateOp

variable (getHash : String → Nat)

/-- The item loop of `DatabaseInner::update`: collect, in fetched order,
the items whose hash is absent from the stored history `H`, together with
their hashes (`result` and `new_hash_list` of the source). -/
def collectNew (H : List Nat) : List Item → List Item × List Nat
  | [] => ([], [])
  | item :: rest =>
    let p := collectNew H rest
    if genItemHash getHash item ∈ H then p
    else (item :: p.1, genItemHash getHash item :: p.2)

/-- `DatabaseInner::update`: empty result for an unknown feed; otherwise
reset the error counter, detect new items against the stored history and,
only when at least one item is new, rebuild the history (new hashes first,
then the old history truncated to the `2 × |items|` cap) and save. -/
def updateFn (st : DatabaseInner) (rss_link : String) (items : List Item) :
    List Item × DatabaseInner :=
  let fid := getHash rss_link
  match lookupKV st.feeds fid with
  | none => ([], st)
  | some feed0 =>
    let feed1 := { feed0 with error_count := 0 }
    let st1 := { st with feeds := insertKV fid feed1 st.feeds }
    let p := collectNew getHash feed1.hash_list items
    if p.1 = [] then (p.1, st1)
    else
      let max_size := items.length * 2
      let app := feed1.hash_list.take (max_size - p.2.length)
      let feed2 := { feed1 with hash_list := p.2 ++ app }
      (p.1, saveFn { st1 with feeds := insertKV fid feed2 st1.feeds })

end UpdateOp

/-- Inner loop of `Database::open`: record feed id `fid` in the index
entry of every subscriber of the record being loaded
(`subscribers.entry(..).or_insert_with(HashSet::new); .insert(feed_id)`). -/
def openIdxAdd (fid : Nat) (subsList : List Int) (m : List (Int × Finset Nat)) :
    List (Int × Finset Nat) :=
  subsList.foldl (fun m2 s => insertKV s (((lookupKV m2 s).getD ∅) ∪ {fid}) m2) m

/-- One iteration of the feed-loading loop of `Database::open`: store the
record under the hash of its link and extend the rebuilt subscriber
index. -/
def openFeedStep (getHash : String → Nat)
    (acc : List (Nat × Feed) × List (Int × Finset Nat)) (feed : Feed) :
    List (Nat × Feed) × List (Int × Finset Nat) :=
  (insertKV (getHash feed.link) feed acc.1,
   openIdxAdd (getHash feed.link) (finSort feed.subscribers) acc.2)

/-- `Database::open` on an existing, well-formed snapshot: re-key every
feed record by the hash of its link, rebuild the subscriber index from the
records' subscriber sets, and load the link-preview triples. -/
def openStorage (getHash : String → Nat) (data : DataStorageIn) : DatabaseInner :=
  let fs := data.feeds.foldl (openFeedStep getHash)
    (([], []) : List (Nat × Feed) × List (Int × Finset Nat))
  let lp := data.lp.foldl (fun m t => insertKV (t.1, t.2.1) t.2.2 m) []
  { feeds := fs.1, subscribers := fs.2, lp_map := lp, writeCount := 0 }

/-- The feed record `subscribe` starts from: the stored record when the
feed id is present, otherwise the fresh record built by
`feeds.entry(feed_id).or_insert_with(..)` (baseline history from the
fetched items). -/
def subFeedBase (getHash : String → Nat) (st : DatabaseInner) (link : String)
    (rss : RSS) : Feed :=
  match lookupKV st.feeds (getHash link) with
  | some f => f
  | none =>
    { link := link, title := rss.title, error_count := 0,
      subscribers := ∅, hash_list := rss.items.map (genItemHash getHash) }

/-- The state produced by a successful `unsubscribe` of subscriber `s`
from the feed stored under `fid` (with `fs` the old index entry of `s` and
`feed` the old record): both memberships are removed, empty records are
dropped, the link-preview entry is cleared and a snapshot is saved. -/
def unsubSuccessState (st : DatabaseInner) (s : Int) (fid : Nat)
    (fs : Finset Nat) (feed : Feed) : DatabaseInner :=
  { st with
    subscribers := if fs.erase fid = ∅ then eraseKV s st.subscribers
      else insertKV s (fs.erase fid) st.subscribers,
    feeds := if feed.subscribers.erase s = ∅ then eraseKV fid st.feeds
      else insertKV fid { feed with subscribers := feed.subscribers.erase s } st.feeds,
    lp_map := eraseKV (s, fid) st.lp_map,
    writeCount := st.writeCount + 1 }

/-- One mutating call on the store, as issued by the command layer. -/
inductive Op where
  | sub : Int → String → RSS → LinkPreview → Op
  | unsub : Int → String → Op
  | delS : Int → Op
  | updS : Int → Int → Op
deriving DecidableEq

section Runs

variable (getHash : String → Nat)

/-- Execute one call, discarding its return value; `none` models a panic
(only `delete_subscriber` and `update_subscriber` can panic). -/
def runOp (st : DatabaseInner) : Op → Option DatabaseInner
  | Op.sub s link rss lp => some (subscribeFn getHash st s link rss lp).2
  | Op.unsub s link => some (unsubscribeFn getHash st s link).2
  | Op.delS s => deleteSubscriberFn getHash st s
  | Op.updS a b => updateSubscriberFn st a b

/-- Execute a sequence of calls. -/
def run (st : DatabaseInner) : List Op → Option DatabaseInner
  | [] => some st
  | op :: ops =>
    match runOp getHash st op with
    | none => none
    | some st' => run st' ops

/-- Side condition of the amended bidirectional-consistency claim: every
`update_subscriber` call is made while its target subscriber follows no
feed (has no subscriber-index entry). -/
def okRun (st : DatabaseInner) : List Op → Bool
  | [] => true
  | op :: ops =>
    (match op with
     | Op.updS _ b => !containsKV st.subscribers b
     | _ => true) &&
    (match runOp getHash st op with
     | none => true
     | some st' => okRun st' ops)

end Runs

/-- The subscriber set of the feed stored under id `f` (empty when the
feed is absent). -/
def feedSubs (st : DatabaseInner) (f : Nat) : Finset Int :=
  match lookupKV st.feeds f with
  | some feed => feed.subscribers
  | none => ∅

/-- The set of feed ids the subscriber index stores for `s` (empty when
the entry is absent). -/
def subIdx (st : DatabaseInner) (s : Int) : Finset Nat :=
  (lookupKV st.subscribers s).getD ∅

/-- Strong bidirectional consistency: membership in a feed's subscriber
set and membership of the feed id in the subscriber-index entry agree, for
all pairs (absent records read as empty sets). -/
def Consistent (st : DatabaseInner) : Prop :=
  ∀ (s : Int) (f : Nat), s ∈ feedSubs st f ↔ f ∈ subIdx st s

/-- The bidirectional consistency invariant exactly as the spec states it:
for every feed present in the registry and every subscriber. -/
def ConsistentClaim (st : DatabaseInner) : Prop :=
  ∀ (f : Nat) (feed : Feed) (s : Int), lookupKV st.feeds f = some feed →
    (s ∈ feed.subscribers ↔ f ∈ subIdx st s)

/-- Link-preview liveness: every key of the link-preview map is a live
subscription (the feed exists and the subscriber is in its set). -/
def LpInv (st : DatabaseInner) : Prop :=
  ∀ (s : Int) (f : Nat) (v : LinkPreview),
    lookupKV st.lp_map (s, f) = some v →
    ∃ feed, lookupKV st.feeds f = some feed ∧ s ∈ feed.subscribers

/-- Executable sufficient check for `Consistent` on concrete states. -/
def consistentB (st : DatabaseInner) : Bool :=
  st.feeds.all
    (fun p => (finSort p.2.subscribers).all (fun s => p.1 ∈ subIdx st s)) &&
  st.subscribers.all
    (fun q => (finSort q.2).all (fun f => q.1 ∈ feedSubs st f))

/-- Every key of the feed registry equals the hash of its record's link —
true of every state the Rust code ever builds, since records are only
stored under `get_hash(link)`. -/
def WellKeyed (getHash : String → Nat) (st : DatabaseInner) : Prop :=
  ∀ (f : Nat) (feed : Feed), lookupKV st.feeds f = some feed → getHash feed.link = f

/-- Well-formedness shared by all states reachable in the Rust code: the
hash maps have no duplicate keys and the feed registry is keyed by link
hashes. -/
def StateWF (getHash : String → Nat) (st : DatabaseInner) : Prop :=
  NodupKeys st.feeds ∧ NodupKeys st.subscribers ∧ NodupKeys st.lp_map ∧
    WellKeyed getHash st

/-- Concrete hash function used for the concrete evaluations below; the
operational definitions are parametric in the hash function, so any
executable stand-in for `DefaultHasher` works as long as the sample
strings get distinct hashes. -/
def demoHash (s : String) : Nat := s.length

/-- A fetched feed with no items, for concrete subscribe calls. -/
def demoRSS : RSS := { title := "T", items := [] }

/-- A concrete item whose hash under `demoHash` is 1. -/
def itX : Item := { id := some "x", title := none, link := none }

/-- A concrete item whose hash under `demoHash` is 3. -/
def itZ : Item := { id := some "xyz", title := none, link := none }

/-- A concrete feed record for link "a" (id 1 under `demoHash`) with
stored history `[1, 2]` and one subscriber. -/
def demoFeedA : Feed :=
  { link := "a", title := "A", error_count := 3, subscribers := {5}, hash_list := [1, 2] }

/-- A concrete one-feed store holding `demoFeedA`. -/
def demoST1 : DatabaseInner :=
  { feeds := [(1, demoFeedA)], subscribers := [(5, {1})], lp_map := [], writeCount := 0 }

/-- Call sequence breaking bidirectional consistency: subscriber 2 already
follows feed "bb" when `update_subscriber 1 2` overwrites its index
entry. -/
def opsBad : List Op :=
  [Op.sub 1 "a" demoRSS LinkPreview.Off, Op.sub 2 "bb" demoRSS LinkPreview.Off,
   Op.updS 1 2]

/-- Call sequence whose `update_subscriber` call targets a fresh
subscriber, satisfying the side condition of the amended claim. -/
def opsGood : List Op :=
  [Op.sub 1 "a" demoRSS LinkPreview.Off, Op.updS 1 2]

/-- Concrete store where subscribers 1 and 2 follow different feeds (ids
10 and 20), with one link-preview entry owned by 1. -/
def stC3 : DatabaseInner :=
  { feeds :=
      [(10, { link := "j", title := "J", error_count := 0, subscribers := {1},
              hash_list := [] }),
       (20, { link := "k", title := "K", error_count := 0, subscribers := {2},
              hash_list := [] })],
    subscribers := [(1, {10}), (2, {20})],
    lp_map := [((1, 10), LinkPreview.On)],
    writeCount := 0 }

/-- The store `update_subscriber 1 2` leaves behind on `stC3`: subscriber
2's own subscription to feed 20 is dropped from the index (overwritten by
1's feed set), while feed 20 still lists 2 as a subscriber. -/
def stAfterC3 : DatabaseInner :=
  { feeds :=
      [(10, { link := "j", title := "J", error_count := 0, subscribers := {2},
              hash_list := [] }),
       (20, { link := "k", title := "K", error_count := 0, subscribers := {2},
              hash_list := [] })],
    subscribers := [(2, {10})],
    lp_map := [((2, 10), LinkPreview.On)],
    writeCount := 0 }

/-- Concrete store where subscriber 7 is the sole subscriber of feed "a"
(id 1 under `demoHash`). -/
def stC4 : DatabaseInner :=
  { feeds :=
      [(1, { link := "a", title := "A", error_count := 0, subscribers := {7},
             hash_list := [] })],
    subscribers := [(7, {1})],
    lp_map := [((7, 1), LinkPreview.On)],
    writeCount := 0 }

/-- The record returned by `unsubscribe 7 "a"` on `stC4`. -/
def fdAfterC4 : Feed :=
  { link := "a", title := "A", error_count := 0, subscribers := ∅, hash_list := [] }

/-- The store left by `unsubscribe 7 "a"` on `stC4`. -/
def stAfterC4 : DatabaseInner :=
  { feeds := [], subscribers := [], lp_map := [], writeCount := 1 }

/-- Concrete well-keyed two-feed store (links "a" and "bb", ids 1 and 2
under `demoHash`) with two link-preview entries. -/
def stC6 : DatabaseInner :=
  { feeds :=
      [(1, { link := "a", title := "A", error_count := 0, subscribers := {5},
             hash_list := [2] }),
       (2, { link := "bb", title := "B", error_count := 1, subscribers := {5, 6},
             hash_list := [] })],
    subscribers := [(5, {1, 2}), (6, {2})],
    lp_map := [((5, 1), LinkPreview.On), ((6, 2), LinkPreview.InstantView 9)],
    writeCount := 0 }

/-- Single-subscribe call sequence used to exhibit a live link-preview
entry. -/
def opsW9 : List Op := [Op.sub 1 "a" demoRSS LinkPreview.On]

/-- The store produced by running `opsW9` from the empty store. -/
def stW9 : DatabaseInner :=
  { feeds := [(1, { link := "a", title := "T", error_count := 0, subscribers := {1},
                    hash_list := [] })],
    subscribers := [(1, {1})],
    lp_map := [((1, 1), LinkPreview.On)],
    writeCount := 1 }

/-- The store produced by running `opsBad` from the empty store: feed "bb"
(id 2) still lists subscriber 2, but 2's index entry is `{1}`. -/
def stBad : DatabaseInner :=
  { feeds :=
      [(2, { link := "bb", title := "T", error_count := 0, subscribers := {2},
             hash_list := [] }),
       (1, { link := "a", title := "T", error_count := 0, subscribers := {2},
             hash_list := [] })],
    subscribers := [(2, {1})],
    lp_map := [((2, 1), LinkPreview.Off), ((2, 2), LinkPreview.Off)],
    writeCount := 2 }

/-- The feed record stored under id 2 in `stBad`. -/
def feedBB : Feed :=
  { link := "bb", title := "T", error_count := 0, subscribers := {2}, hash_list := [] }

/-- The store produced by running `opsGood` from the empty store. -/
def stGood : DatabaseInner :=
  { feeds := [(1, { link := "a", title := "T", error_count := 0, subscribers := {2},
                    hash_list := [] })],
    subscribers := [(2, {1})],
    lp_map := [((2, 1), LinkPreview.Off)],
    writeCount := 1 }

/-- The feed record stored under id 1 in `stGood`. -/
def feedGood : Feed :=
  { link := "a", title := "T", error_count := 0, subscribers := {2}, hash_list := [] }

/-- Concrete consistent store where subscriber 3 follows feed 1. -/
def stC8 : DatabaseInner :=
  { feeds :=
      [(1, { link := "a", title := "A", error_count := 0, subscribers := {3},
             hash_list := [] })],
    subscribers := [(3, {1})],
    lp_map := [],
    writeCount := 0 }

theorem mem_finSort {α : Type} [LinearOrder α] (s : Finset α) (x : α) :
    x ∈ finSort s ↔ x ∈ s := by
  rcases s with ⟨m, hnd⟩
  induction m using Quotient.inductionOn with
  | h l =>
    show x ∈ List.insertionSort (fun x y => x ≤ y) l ↔ _
    rw [(List.perm_insertionSort (fun x y => x ≤ y) l).mem_iff]
    rfl

theorem finSort_nodup {α : Type} [LinearOrder α] (s : Finset α) :
    (finSort s).Nodup := by
  rcases s with ⟨m, hnd⟩
  induction m using Quotient.inductionOn with
  | h l =>
    show (List.insertionSort (fun x y => x ≤ y) l).Nodup
    exact (List.perm_insertionSort (fun x y => x ≤ y) l).nodup_iff.mpr
      (by exact hnd)

section MapLemmas

variable {κ α : Type} [DecidableEq κ]

theorem lookupKV_cons (p : κ × α) (l : List (κ × α)) (k : κ) :
    lookupKV (p :: l) k = if p.1 = k then some p.2 else lookupKV l k := rfl

theorem lookupKV_map_key_ne {l : List (κ × α)} {k k' : κ} {v : α} (h : k' ≠ k) :
    lookupKV (l.map (fun p => if p.1 = k then (k, v) else p)) k' = lookupKV l k' := by
  induction l with
  | nil => rfl
  | cons p rest ih =>
    by_cases hp : p.1 = k
    · simp only [List.map_cons, if_pos hp, lookupKV_cons]
      rw [if_neg (fun hk => h hk.symm), if_neg (by rw [hp]; exact fun hk => h hk.symm)]
      exact ih
    · simp only [List.map_cons, if_neg hp, lookupKV_cons]
      by_cases hk : p.1 = k'
      · rw [if_pos hk, if_pos hk]
      · rw [if_neg hk, if_neg hk]; exact ih

theorem lookupKV_insert_self (l : List (κ × α)) (k : κ) (v : α) :
    lookupKV (insertKV k v l) k = some v := by
  unfold insertKV
  by_cases hc : containsKV l k
  · rw [if_pos hc]
    induction l with
    | nil => simp [containsKV] at hc
    | cons p rest ih =>
      by_cases hp : p.1 = k
      · simp [List.map_cons, if_pos hp, lookupKV_cons]
      · simp only [List.map_cons, if_neg hp, lookupKV_cons, if_neg hp]
        apply ih
        simpa [containsKV, hp] using hc
  · rw [if_neg hc]
    simp [lookupKV_cons]

theorem lookupKV_insert_ne {l : List (κ × α)} {k k' : κ} (v : α) (h : k' ≠ k) :
    lookupKV (insertKV k v l) k' = lookupKV l k' := by
  unfold insertKV
  by_cases hc : containsKV l k
  · rw [if_pos hc]; exact lookupKV_map_key_ne h
  · rw [if_neg hc]
    rw [lookupKV_cons, if_neg (fun hk => h hk.symm)]

theorem lookupKV_erase_self (l : List (κ × α)) (k : κ) :
    lookupKV (eraseKV k l) k = none := by
  induction l with
  | nil => rfl
  | cons p rest ih =>
    unfold eraseKV at ih ⊢
    by_cases hp : p.1 = k
    · simp only [List.filter_cons, hp]
      simpa using ih
    · simp only [List.filter_cons]
      rw [if_pos (by simpa using hp)]
      rw [lookupKV_cons, if_neg hp]
      exact ih

theorem lookupKV_erase_ne {l : List (κ × α)} {k k' : κ} (h : k' ≠ k) :
    lookupKV (eraseKV k l) k' = lookupKV l k' := by
  induction l with
  | nil => rfl
  | cons p rest ih =>
    unfold eraseKV at ih ⊢
    by_cases hp : p.1 = k
    · rw [List.filter_cons, if_neg (by simp [hp])]
      rw [ih, lookupKV_cons, if_neg (by rw [hp]; exact fun hk => h hk.symm)]
    · simp only [List.filter_cons]
      rw [if_pos (by simpa using hp)]
      rw [lookupKV_cons, lookupKV_cons]
      by_cases hk : p.1 = k'
      · rw [if_pos hk, if_pos hk]
      · rw [if_neg hk, if_neg hk]; exact ih

theorem containsKV_eq_isSome (l : List (κ × α)) (k : κ) :
    containsKV l k = (lookupKV l k).isSome := by
  induction l with
  | nil => rfl
  | cons p rest ih =>
    unfold containsKV at ih ⊢
    rw [List.any_cons, lookupKV_cons]
    by_cases hp : p.1 = k
    · simp [hp]
    · simp only [if_neg hp, hp, decide_False, Bool.false_or]
      exact ih

theorem nodupKeys_insert {l : List (κ × α)} (k : κ) (v : α) (h : NodupKeys l) :
    NodupKeys (insertKV k v l) := by
  unfold insertKV
  by_cases hc : containsKV l k
  · rw [if_pos hc]
    unfold NodupKeys at h ⊢
    have heq : (l.map (fun p => if p.1 = k then (k, v) else p)).map Prod.fst
        = l.map Prod.fst := by
      rw [List.map_map]
      apply List.map_congr_left
      intro p _
      by_cases hp : p.1 = k
      · simp [hp]
      · simp [hp]
    rw [heq]; exact h
  · rw [if_neg hc]
    unfold NodupKeys at h ⊢
    simp only [List.map_cons, List.nodup_cons]
    refine ⟨?_, h⟩
    intro hk
    rcases List.mem_map.mp hk with ⟨p, hp, hpk⟩
    have : containsKV l k = true := by
      unfold containsKV
      exact List.any_eq_true.mpr ⟨p, hp, by simp [hpk]⟩
    exact hc this

theorem nodupKeys_erase {l : List (κ × α)} (k : κ) (h : NodupKeys l) :
    NodupKeys (eraseKV k l) := by
  unfold NodupKeys at h ⊢
  unfold eraseKV
  exact List.Nodup.sublist (List.Sublist.map _ (List.filter_sublist l)) h

theorem insertKV_lookup_eq {l : List (κ × α)} {k : κ} {v : α}
    (hn : NodupKeys l) (h : lookupKV l k = some v) : insertKV k v l = l := by
  unfold insertKV
  rw [if_pos (by rw [containsKV_eq_isSome, h]; rfl)]
  induction l with
  | nil => rfl
  | cons p rest ih =>
    unfold NodupKeys at hn
    simp only [List.map_cons, List.nodup_cons] at hn
    by_cases hp : p.1 = k
    · rw [lookupKV_cons, if_pos hp] at h
      have hrest : rest.map (fun p => if p.1 = k then (k, v) else p) = rest := by
        have : ∀ q ∈ rest, (fun (p : κ × α) => if p.1 = k then (k, v) else p) q = q := by
          intro q hq
          have hqk : q.1 ≠ k := by
            intro hqk
            exact hn.1 (hp ▸ hqk ▸ List.mem_map.mpr ⟨q, hq, rfl⟩)
          simp [hqk]
        calc rest.map (fun p => if p.1 = k then (k, v) else p)
            = rest.map id := List.map_congr_left this
          _ = rest := List.map_id rest
      have hpv : p = (k, v) := by
        rcases p with ⟨pk, pv⟩
        simp only at hp
        injection h with h2
        simp only at h2
        rw [hp, h2]
      simp [List.map_cons, hp, hrest, hpv]
    · rw [lookupKV_cons, if_neg hp] at h
      simp only [List.map_cons, if_neg hp]
      rw [ih hn.2 h]

theorem mem_of_lookupKV {l : List (κ × α)} {k : κ} {v : α}
    (h : lookupKV l k = some v) : (k, v) ∈ l := by
  induction l with
  | nil => simp [lookupKV] at h
  | cons p rest ih =>
    rw [lookupKV_cons] at h
    by_cases hp : p.1 = k
    · rw [if_pos hp] at h
      injection h with h2
      have hpv : p = (k, v) := by
        rcases p with ⟨pk, pv⟩
        simp only at hp h2
        rw [hp, h2]
      rw [← hpv]
      exact List.mem_cons_self p rest
    · rw [if_neg hp] at h
      exact List.mem_cons_of_mem _ (ih h)

theorem lookupKV_of_mem {l : List (κ × α)} {k : κ} {v : α}
    (hn : NodupKeys l) (h : (k, v) ∈ l) : lookupKV l k = some v := by
  induction l with
  | nil => simp at h
  | cons p rest ih =>
    unfold NodupKeys at hn
    simp only [List.map_cons, List.nodup_cons] at hn
    rcases List.mem_cons.mp h with h1 | h2
    · rw [← h1]
      simp [lookupKV_cons]
    · have hk : p.1 ≠ k := by
        intro hpk
        exact hn.1 (hpk ▸ List.mem_map.mpr ⟨(k, v), h2, rfl⟩)
      rw [lookupKV_cons, if_neg hk]
      exact ih hn.2 h2

end MapLemmas

section UpdateLemmas

variable (getHash : String → Nat)

theorem collectNew_eq (H : List Nat) (items : List Item) :
    collectNew getHash H items =
      (items.filter (fun it => genItemHash getHash it ∉ H),
       (items.filter (fun it => genItemHash getHash it ∉ H)).map (genItemHash getHash)) := by
  induction items with
  | nil => rfl
  | cons it rest ih =>
    unfold collectNew
    rw [ih]
    by_cases hm : genItemHash getHash it ∈ H
    · simp [hm]
    · simp [hm]

/-- Claim C10: in `update`, the collected new-item hash list is never
longer than the fetched item list, hence never exceeds the `2 × |items|`
cap, so the truncation amount `max_size - new_hash_list.len()` is an exact
(non-underflowing) subtraction. -/
theorem update_new_hash_count_le (H : List Nat) (items : List Item) :
    (collectNew getHash H items).2.length ≤ items.length ∧
    (collectNew getHash H items).2.length ≤ items.length * 2 ∧
    items.length * 2 - (collectNew getHash H items).2.length
      + (collectNew getHash H items).2.length = items.length * 2 := by
  have h1 : (collectNew getHash H items).2.length ≤ items.length := by
    rw [collectNew_eq]
    simp only [List.length_map]
    exact List.length_filter_le _ _
  refine ⟨h1, le_trans h1 (by omega), ?_⟩
  have h2 : (collectNew getHash H items).2.length ≤ items.length * 2 :=
    le_trans h1 (by omega)
  omega

/-- Claim C1 (amended): when at least one fetched item is new, the stored
history after `update` is the hashes of the *newly detected* items only
(not of all fetched items), in fetched order, followed by the old history
truncated so that the total stays within the `2 × |items|` cap; the
returned list is exactly the new items in fetched order. -/
theorem update_history_rebuild (st : DatabaseInner) (link : String)
    (items : List Item) (feed : Feed)
    (hfeed : lookupKV st.feeds (getHash link) = some feed)
    (hnew : items.filter (fun it => genItemHash getHash it ∉ feed.hash_list) ≠ []) :
    (updateFn getHash st link items).1
      = items.filter (fun it => genItemHash getHash it ∉ feed.hash_list) ∧
    ∃ feed2, lookupKV (updateFn getHash st link items).2.feeds (getHash link) = some feed2 ∧
      feed2.hash_list
        = (items.filter (fun it => genItemHash getHash it ∉ feed.hash_list)).map
            (genItemHash getHash)
          ++ feed.hash_list.take (items.length * 2
              - (items.filter (fun it => genItemHash getHash it ∉ feed.hash_list)).length) ∧
      feed2.hash_list.length ≤ items.length * 2 := by
  simp only [updateFn]
  rw [hfeed]
  simp only [collectNew_eq]
  rw [if_neg (by simpa using hnew)]
  simp only [saveFn]
  refine ⟨by trivial, ?_⟩
  refine ⟨_, lookupKV_insert_self _ _ _, ?_⟩
  simp only [List.length_map]
  refine ⟨by trivial, ?_⟩
  rw [List.length_append, List.length_map, List.length_take]
  have hf : (items.filter (fun it => genItemHash getHash it ∉ feed.hash_list)).length
      ≤ items.length := List.length_filter_le _ _
  omega

/-- Claim C1 counterexample: with stored history `[1, 2]` and fetched
items hashing to `[1, 3]` (first one old, second one new), the stored
history becomes `[3, 1, 2]` — the hashes of the new items only — and not
the claimed "hashes of all items just fetched followed by old entries"
(`[1, 3, 1, 2]`). -/
theorem update_history_rebuild_cex :
    (lookupKV (updateFn demoHash demoST1 "a" [itX, itZ]).2.feeds 1).map Feed.hash_list
      = some [3, 1, 2] ∧
    (lookupKV (updateFn demoHash demoST1 "a" [itX, itZ]).2.feeds 1).map Feed.hash_list
      ≠ some ((([itX, itZ].map (genItemHash demoHash)) ++ demoFeedA.hash_list).take
          ([itX, itZ].length * 2)) := by
  constructor
  · decide
  · decide

theorem update_history_rebuild_witness :
    [itX, itZ].filter (fun it => genItemHash demoHash it ∉ demoFeedA.hash_list) ≠ [] ∧
    (updateFn demoHash demoST1 "a" [itX, itZ]).1
      = [itX, itZ].filter (fun it => genItemHash demoHash it ∉ demoFeedA.hash_list) :=
  ⟨by decide,
   (update_history_rebuild demoHash demoST1 "a" [itX, itZ] demoFeedA
     (by decide) (by decide)).1⟩

/-- Claim C7: when every fetched item is already in the stored history
(in particular for an empty fetch), `update` returns the empty list,
leaves the stored history unchanged and performs no snapshot write. -/
theorem update_no_new_items_frame (st : DatabaseInner) (link : String)
    (items : List Item) (feed : Feed)
    (hfeed : lookupKV st.feeds (getHash link) = some feed)
    (hall : ∀ it ∈ items, genItemHash getHash it ∈ feed.hash_list) :
    (updateFn getHash st link items).1 = [] ∧
    (lookupKV (updateFn getHash st link items).2.feeds (getHash link)).map Feed.hash_list
      = some feed.hash_list ∧
    (updateFn getHash st link items).2.writeCount = st.writeCount := by
  have hfil : items.filter (fun it => genItemHash getHash it ∉ feed.hash_list) = [] := by
    rw [List.filter_eq_nil_iff]
    intro it hit
    simpa using hall it hit
  simp only [updateFn]
  rw [hfeed]
  simp only [collectNew_eq]
  rw [if_pos (by simpa using hfil)]
  refine ⟨hfil, ?_, rfl⟩
  rw [lookupKV_insert_self]
  rfl

theorem update_no_new_items_frame_witness :
    lookupKV demoST1.feeds (demoHash "a") = some demoFeedA ∧
    (updateFn demoHash demoST1 "a" [itX]).1 = [] ∧
    (updateFn demoHash demoST1 "a" [itX]).2.writeCount = demoST1.writeCount :=
  ⟨by decide,
   (update_no_new_items_frame demoHash demoST1 "a" [itX] demoFeedA
     (by decide) (by decide)).1,
   (update_no_new_items_frame demoHash demoST1 "a" [itX] demoFeedA
     (by decide) (by decide)).2.2⟩

end UpdateLemmas

theorem filter_ne_map_replace {κ α : Type} [DecidableEq κ] (k : κ) (v : α)
    (l : List (κ × α)) :
    (l.map (fun p => if p.1 = k then (k, v) else p)).filter (fun p => ¬ p.1 = k)
      = l.filter (fun p => ¬ p.1 = k) := by
  induction l with
  | nil => rfl
  | cons p rest ih =>
    by_cases hp : p.1 = k
    · rw [List.map_cons, if_pos hp, List.filter_cons, List.filter_cons,
        if_neg (by simp), if_neg (by simp [hp])]
      exact ih
    · rw [List.map_cons, if_neg hp, List.filter_cons, List.filter_cons,
        if_pos (by simpa using hp), if_pos (by simpa using hp)]
      rw [ih]

theorem eraseKV_insert_self {κ α : Type} [DecidableEq κ] (k : κ) (v : α)
    (l : List (κ × α)) : eraseKV k (insertKV k v l) = eraseKV k l := by
  unfold insertKV
  by_cases hc : containsKV l k
  · rw [if_pos hc]
    exact filter_ne_map_replace k v l
  · rw [if_neg hc]
    unfold eraseKV
    rw [List.filter_cons, if_neg (by simp)]

section UnsubLemmas

variable (getHash : String → Nat)

theorem unsubscribeFn_no_idx (st : DatabaseInner) (s : Int) (link : String)
    (hs : lookupKV st.subscribers s = none) :
    unsubscribeFn getHash st s link = (Except.error ErrorKind.NotSubscribed, st) := by
  simp only [unsubscribeFn, hs]

theorem unsubscribeFn_not_in_idx (st : DatabaseInner) (s : Int) (link : String)
    (fs : Finset Nat) (hs : lookupKV st.subscribers s = some fs)
    (hfid : getHash link ∉ fs) :
    unsubscribeFn getHash st s link = (Except.error ErrorKind.NotSubscribed, st) := by
  simp only [unsubscribeFn, hs]
  rw [if_neg hfid]

theorem unsubscribeFn_bad_feed (st : DatabaseInner) (s : Int) (link : String)
    (fs : Finset Nat) (hs : lookupKV st.subscribers s = some fs)
    (hfid : getHash link ∈ fs)
    (hbad : lookupKV st.feeds (getHash link) = none ∨
      ∃ feed, lookupKV st.feeds (getHash link) = some feed ∧ s ∉ feed.subscribers) :
    (unsubscribeFn getHash st s link).1 = Except.error ErrorKind.NotSubscribed ∧
    (unsubscribeFn getHash st s link).2.feeds = st.feeds ∧
    (unsubscribeFn getHash st s link).2.lp_map = st.lp_map ∧
    (unsubscribeFn getHash st s link).2.writeCount = st.writeCount := by
  simp only [unsubscribeFn, hs]
  rw [if_pos hfid]
  by_cases hclear : fs.erase (getHash link) = ∅
  · rw [if_pos hclear]
    dsimp only
    rcases hbad with hnone | ⟨feed, hfeed, hmem⟩
    · rw [hnone]
      exact ⟨rfl, rfl, rfl, rfl⟩
    · rw [hfeed]
      dsimp only
      rw [if_neg hmem]
      exact ⟨rfl, rfl, rfl, rfl⟩
  · rw [if_neg hclear]
    dsimp only
    rcases hbad with hnone | ⟨feed, hfeed, hmem⟩
    · rw [hnone]
      exact ⟨rfl, rfl, rfl, rfl⟩
    · rw [hfeed]
      dsimp only
      rw [if_neg hmem]
      exact ⟨rfl, rfl, rfl, rfl⟩

theorem unsubscribeFn_ok (st : DatabaseInner) (s : Int) (link : String)
    (fs : Finset Nat) (feed : Feed)
    (hs : lookupKV st.subscribers s = some fs) (hfid : getHash link ∈ fs)
    (hfeed : lookupKV st.feeds (getHash link) = some feed)
    (hmem : s ∈ feed.subscribers) :
    unsubscribeFn getHash st s link =
      (Except.ok { feed with subscribers := feed.subscribers.erase s },
       unsubSuccessState st s (getHash link) fs feed) := by
  simp only [unsubscribeFn, hs]
  rw [if_pos hfid]
  unfold unsubSuccessState
  by_cases hclear : fs.erase (getHash link) = ∅
  · rw [if_pos hclear, if_pos hclear]
    dsimp only
    rw [eraseKV_insert_self, hfeed]
    dsimp only
    rw [if_pos hmem]
    unfold saveFn
    dsimp only
    by_cases hcf : feed.subscribers.erase s = ∅
    · rw [if_pos hcf, if_pos hcf, eraseKV_insert_self]
    · rw [if_neg hcf, if_neg hcf]
  · rw [if_neg hclear, if_neg hclear]
    dsimp only
    rw [hfeed]
    dsimp only
    rw [if_pos hmem]
    unfold saveFn
    dsimp only
    by_cases hcf : feed.subscribers.erase s = ∅
    · rw [if_pos hcf, if_pos hcf, eraseKV_insert_self]
    · rw [if_neg hcf, if_neg hcf]

/-- Claim C4 (amended): a successful `unsubscribe` returns a copy of the
feed record whose link, title, error counter and history are those stored
immediately before removal, but whose subscriber set is the stored one
*minus the unsubscribing subscriber* (the source clones the record after
`feed.subscribers.remove(&subscriber)`), so the returned set no longer
contains `s`. -/
theorem unsubscribe_returned_record (st : DatabaseInner) (s : Int)
    (link : String) (fd : Feed) (st' : DatabaseInner)
    (h : unsubscribeFn getHash st s link = (Except.ok fd, st')) :
    ∃ feed, lookupKV st.feeds (getHash link) = some feed ∧
      fd.link = feed.link ∧ fd.title = feed.title ∧
      fd.error_count = feed.error_count ∧ fd.hash_list = feed.hash_list ∧
      fd.subscribers = feed.subscribers.erase s ∧ s ∉ fd.subscribers := by
  have h1 : (unsubscribeFn getHash st s link).1 = Except.ok fd := by rw [h]
  rcases hs : lookupKV st.subscribers s with _ | fs
  · rw [unsubscribeFn_no_idx getHash st s link hs] at h1
    exact absurd h1 (by simp)
  · by_cases hfid : getHash link ∈ fs
    · rcases hfeed : lookupKV st.feeds (getHash link) with _ | feed
      · have hb := (unsubscribeFn_bad_feed getHash st s link fs hs hfid (Or.inl hfeed)).1
        rw [hb] at h1
        exact absurd h1 (by simp)
      · by_cases hmem : s ∈ feed.subscribers
        · rw [unsubscribeFn_ok getHash st s link fs feed hs hfid hfeed hmem] at h
          have hfd : fd = { feed with subscribers := feed.subscribers.erase s } := by
            have h2 := congrArg Prod.fst h
            simp only at h2
            injection h2 with h3
            exact h3.symm
          refine ⟨feed, rfl, ?_⟩
          rw [hfd]
          exact ⟨rfl, rfl, rfl, rfl, rfl, Finset.not_mem_erase s feed.subscribers⟩
        · have hb := (unsubscribeFn_bad_feed getHash st s link fs hs hfid
            (Or.inr ⟨feed, hfeed, hmem⟩)).1
          rw [hb] at h1
          exact absurd h1 (by simp)
    · rw [unsubscribeFn_not_in_idx getHash st s link fs hs hfid] at h1
      exact absurd h1 (by simp)

end UnsubLemmas

theorem unsubscribe_returned_record_cex :
    lookupKV stC4.feeds (demoHash "a")
      = some { link := "a", title := "A", error_count := 0, subscribers := {7},
               hash_list := [] } ∧
    (unsubscribeFn demoHash stC4 7 "a").1
      = Except.ok { link := "a", title := "A", error_count := 0, subscribers := ∅,
                    hash_list := [] } ∧
    (7 : Int) ∈ ({7} : Finset Int) ∧
    (7 : Int) ∉ (∅ : Finset Int) := by
  refine ⟨by decide, by decide, by decide, by decide⟩

theorem unsubscribe_returned_record_witness :
    unsubscribeFn demoHash stC4 7 "a" = (Except.ok fdAfterC4, stAfterC4) ∧
    (7 : Int) ∉ fdAfterC4.subscribers := by
  refine ⟨by decide, ?_⟩
  obtain ⟨feed, h1, h2, h3, h4, h5, h6, h7⟩ :=
    unsubscribe_returned_record demoHash stC4 7 "a" fdAfterC4 stAfterC4 (by decide)
  exact h7

section SubscribeLemmas

variable (getHash : String → Nat)

theorem subscribeFn_err_shape (st : DatabaseInner) (s : Int) (link : String)
    (rss : RSS) (lp : LinkPreview)
    (hc : getHash link ∈ (lookupKV st.subscribers s).getD ∅ ∧
      lookupKV st.lp_map (s, getHash link) = some lp) :
    subscribeFn getHash st s link rss lp =
      (Except.error ErrorKind.AlreadySubscribed,
       { st with
         subscribers := insertKV s
             (((lookupKV st.subscribers s).getD ∅) ∪ {getHash link})
             st.subscribers }) := by
  simp only [subscribeFn]
  rw [if_pos hc]

theorem subscribeFn_ok_shape (st : DatabaseInner) (s : Int) (link : String)
    (rss : RSS) (lp : LinkPreview)
    (hc : ¬(getHash link ∈ (lookupKV st.subscribers s).getD ∅ ∧
      lookupKV st.lp_map (s, getHash link) = some lp)) :
    (subscribeFn getHash st s link rss lp).2 =
      { feeds := insertKV (getHash link)
                   { subFeedBase getHash st link rss with
                     subscribers := insert s (subFeedBase getHash st link rss).subscribers }
                   st.feeds,
        subscribers := insertKV s
                         (((lookupKV st.subscribers s).getD ∅) ∪ {getHash link})
                         st.subscribers,
        lp_map := insertKV (s, getHash link) lp st.lp_map,
        writeCount := st.writeCount + 1 } := by
  simp only [subscribeFn]
  rw [if_neg hc]
  unfold subFeedBase saveFn
  rfl

/-- Claim C5: a second `subscribe` with identical arguments fails with
`AlreadySubscribed` and leaves the store state — feeds, subscriber index,
link-preview map, error counters, histories and the write counter —
exactly as the first call left it (no persistence write).  The no-dup-keys
hypothesis holds for every store the Rust `HashMap`s can represent. -/
theorem subscribe_twice_already_subscribed (st : DatabaseInner) (s : Int)
    (link : String) (rss : RSS) (lp : LinkPreview)
    (hn : NodupKeys st.subscribers) :
    subscribeFn getHash (subscribeFn getHash st s link rss lp).2 s link rss lp
      = (Except.error ErrorKind.AlreadySubscribed,
         (subscribeFn getHash st s link rss lp).2) := by
  by_cases hc : getHash link ∈ (lookupKV st.subscribers s).getD ∅ ∧
      lookupKV st.lp_map (s, getHash link) = some lp
  · -- the first call already fails; its state keeps the maps unchanged
    rcases hlk : lookupKV st.subscribers s with _ | old0
    · rw [hlk] at hc
      simp at hc
    · have hold : (lookupKV st.subscribers s).getD ∅ = old0 := by rw [hlk]; rfl
      have hu : old0 ∪ {getHash link} = old0 :=
        Finset.union_eq_left.mpr (Finset.singleton_subset_iff.mpr (by
          rw [hold] at hc; exact hc.1))
      have hstE : (subscribeFn getHash st s link rss lp).2 = st := by
        rw [subscribeFn_err_shape getHash st s link rss lp hc]
        rw [hold, hu, insertKV_lookup_eq hn hlk]
      rw [hstE]
      rw [subscribeFn_err_shape getHash st s link rss lp hc, hold, hu,
        insertKV_lookup_eq hn hlk]
  · -- the first call succeeds and records the link-preview value
    have hshape := subscribeFn_ok_shape getHash st s link rss lp hc
    have hlk2 : lookupKV (subscribeFn getHash st s link rss lp).2.subscribers s
        = some (((lookupKV st.subscribers s).getD ∅) ∪ {getHash link}) := by
      rw [hshape]
      exact lookupKV_insert_self _ _ _
    have hlp2 : lookupKV (subscribeFn getHash st s link rss lp).2.lp_map
        (s, getHash link) = some lp := by
      rw [hshape]
      exact lookupKV_insert_self _ _ _
    have hmem2 : getHash link
        ∈ (lookupKV (subscribeFn getHash st s link rss lp).2.subscribers s).getD ∅ := by
      rw [hlk2]
      exact Finset.mem_union_right _ (Finset.mem_singleton_self _)
    have hc2 : getHash link
        ∈ (lookupKV (subscribeFn getHash st s link rss lp).2.subscribers s).getD ∅ ∧
        lookupKV (subscribeFn getHash st s link rss lp).2.lp_map (s, getHash link)
          = some lp := ⟨hmem2, hlp2⟩
    rw [subscribeFn_err_shape getHash (subscribeFn getHash st s link rss lp).2
      s link rss lp hc2]
    have hgetd : (lookupKV (subscribeFn getHash st s link rss lp).2.subscribers s).getD ∅
        = ((lookupKV st.subscribers s).getD ∅) ∪ {getHash link} := by rw [hlk2]; rfl
    have hu2 : (((lookupKV st.subscribers s).getD ∅) ∪ {getHash link}) ∪ {getHash link}
        = ((lookupKV st.subscribers s).getD ∅) ∪ {getHash link} :=
      Finset.union_eq_left.mpr (Finset.singleton_subset_iff.mpr
        (Finset.mem_union_right _ (Finset.mem_singleton_self _)))
    have hn2 : NodupKeys (subscribeFn getHash st s link rss lp).2.subscribers := by
      rw [hshape]
      exact nodupKeys_insert s _ hn
    rw [hgetd, hu2, insertKV_lookup_eq hn2 hlk2]

end SubscribeLemmas

theorem subscribe_twice_already_subscribed_witness :
    NodupKeys emptyDB.subscribers ∧
    subscribeFn demoHash (subscribeFn demoHash emptyDB 7 "a" demoRSS LinkPreview.On).2
        7 "a" demoRSS LinkPreview.On
      = (Except.error ErrorKind.AlreadySubscribed,
         (subscribeFn demoHash emptyDB 7 "a" demoRSS LinkPreview.On).2) :=
  ⟨by decide,
   subscribe_twice_already_subscribed demoHash emptyDB 7 "a" demoRSS LinkPreview.On
     (by decide)⟩

theorem usStep_char {a b : Int} {st st' : DatabaseInner} {fid : Nat}
    (h : usStep a b st fid = some st') :
    ∃ feed, lookupKV st.feeds fid = some feed ∧
      st'.feeds = insertKV fid
        { feed with subscribers := insert b (feed.subscribers.erase a) } st.feeds ∧
      st'.subscribers = st.subscribers ∧ st'.writeCount = st.writeCount := by
  unfold usStep at h
  rcases hf : lookupKV st.feeds fid with _ | feed
  · rw [hf] at h
    exact absurd h (by simp)
  · rw [hf] at h
    dsimp only at h
    rcases hlp : lookupKV st.lp_map (a, fid) with _ | v
    · rw [hlp] at h
      injection h with h2
      rw [← h2]
      exact ⟨feed, rfl, rfl, rfl, rfl⟩
    · rw [hlp] at h
      injection h with h2
      rw [← h2]
      exact ⟨feed, rfl, rfl, rfl, rfl⟩

theorem usStep_none {a b : Int} {st : DatabaseInner} {fid : Nat}
    (h : lookupKV st.feeds fid = none) : usStep a b st fid = none := by
  unfold usStep
  rw [h]

theorem usStep_isSome {a b : Int} {st : DatabaseInner} {fid : Nat}
    (h : (lookupKV st.feeds fid).isSome) : (usStep a b st fid).isSome := by
  unfold usStep
  rcases hf : lookupKV st.feeds fid with _ | feed
  · rw [hf] at h
    simp at h
  · dsimp only
    rcases hlp : lookupKV st.lp_map (a, fid) with _ | v <;> simp

theorem usStep_lp_frame {a b : Int} {st st' : DatabaseInner} {fid : Nat}
    (h : usStep a b st fid = some st') (s : Int) (f : Nat)
    (h1 : (s, f) ≠ (a, fid)) (h2 : (s, f) ≠ (b, fid)) :
    lookupKV st'.lp_map (s, f) = lookupKV st.lp_map (s, f) := by
  unfold usStep at h
  rcases hf : lookupKV st.feeds fid with _ | feed
  · rw [hf] at h
    exact absurd h (by simp)
  · rw [hf] at h
    dsimp only at h
    rcases hlp : lookupKV st.lp_map (a, fid) with _ | v
    · rw [hlp] at h
      injection h with h3
      rw [← h3]
    · rw [hlp] at h
      injection h with h3
      rw [← h3]
      dsimp only
      rw [lookupKV_insert_ne _ h2, lookupKV_erase_ne h1]

theorem usStep_lp_move {a b : Int} {st st' : DatabaseInner} {fid : Nat}
    (hab : a ≠ b) (h : usStep a b st fid = some st') :
    lookupKV st'.lp_map (a, fid) = none ∨
      (lookupKV st.lp_map (a, fid) = none ∧
       lookupKV st'.lp_map (a, fid) = lookupKV st.lp_map (a, fid)) := by
  unfold usStep at h
  rcases hf : lookupKV st.feeds fid with _ | feed
  · rw [hf] at h
    exact absurd h (by simp)
  · rw [hf] at h
    dsimp only at h
    rcases hlp : lookupKV st.lp_map (a, fid) with _ | v
    · rw [hlp] at h
      injection h with h3
      rw [← h3]
      exact Or.inr ⟨rfl, hlp⟩
    · rw [hlp] at h
      injection h with h3
      rw [← h3]
      dsimp only
      left
      rw [lookupKV_insert_ne _ (fun he => hab (congrArg Prod.fst he)),
        lookupKV_erase_self]

theorem usStep_lp_carry {a b : Int} {st st' : DatabaseInner} {fid : Nat}
    (hab : a ≠ b) (h : usStep a b st fid = some st') {v : LinkPreview}
    (hv : lookupKV st.lp_map (a, fid) = some v) :
    lookupKV st'.lp_map (b, fid) = some v ∧ lookupKV st'.lp_map (a, fid) = none := by
  unfold usStep at h
  rcases hf : lookupKV st.feeds fid with _ | feed
  · rw [hf] at h
    exact absurd h (by simp)
  · rw [hf] at h
    dsimp only at h
    rw [hv] at h
    injection h with h3
    rw [← h3]
    dsimp only
    constructor
    · exact lookupKV_insert_self _ _ _
    · rw [lookupKV_insert_ne _ (fun he => hab (congrArg Prod.fst he)),
        lookupKV_erase_self]

theorem foldlM_some_preserve {σ β : Type} (step : σ → β → Option σ) (P : σ → Prop)
    (hstep : ∀ x y x', step x y = some x' → P x → P x') :
    ∀ (l : List β) (x x' : σ), List.foldlM step x l = some x' → P x → P x' := by
  intro l
  induction l with
  | nil =>
    intro x x' h hp
    simp only [List.foldlM_nil] at h
    injection h with h2
    rw [← h2]
    exact hp
  | cons y rest ih =>
    intro x x' h hp
    rw [List.foldlM_cons] at h
    rcases hs : step x y with _ | x1
    · rw [hs] at h
      exact absurd h (by simp)
    · rw [hs] at h
      simp only [Option.bind_eq_bind, Option.some_bind] at h
      exact ih x1 x' h (hstep x y x1 hs hp)

theorem usFold_char (a b : Int) :
    ∀ (l : List Nat), l.Nodup → ∀ (st st' : DatabaseInner),
    List.foldlM (usStep a b) st l = some st' →
    st'.subscribers = st.subscribers ∧ st'.writeCount = st.writeCount ∧
    (∀ fid ∈ l, ∃ feed, lookupKV st.feeds fid = some feed ∧
      lookupKV st'.feeds fid
        = some { feed with subscribers := insert b (feed.subscribers.erase a) }) ∧
    (∀ fid, fid ∉ l → lookupKV st'.feeds fid = lookupKV st.feeds fid) := by
  intro l
  induction l with
  | nil =>
    intro _ st st' h
    simp only [List.foldlM_nil] at h
    injection h with h2
    rw [← h2]
    exact ⟨rfl, rfl, by simp, fun _ _ => rfl⟩
  | cons fid0 rest ih =>
    intro hl st st' h
    rw [List.nodup_cons] at hl
    rw [List.foldlM_cons] at h
    rcases hs : usStep a b st fid0 with _ | st1
    · rw [hs] at h
      exact absurd h (by simp)
    · rw [hs] at h
      simp only [Option.bind_eq_bind, Option.some_bind] at h
      obtain ⟨feed0, hf0, hfeeds1, hsubs1, hwc1⟩ := usStep_char hs
      obtain ⟨ihsubs, ihwc, ihmem, ihfr⟩ := ih hl.2 st1 st' h
      refine ⟨by rw [ihsubs, hsubs1], by rw [ihwc, hwc1], ?_, ?_⟩
      · intro fid hfid
        rcases List.mem_cons.mp hfid with h1 | h2
        · subst h1
          refine ⟨feed0, hf0, ?_⟩
          rw [ihfr fid hl.1, hfeeds1, lookupKV_insert_self]
        · obtain ⟨feed, hfs, hfs'⟩ := ihmem fid h2
          refine ⟨feed, ?_, hfs'⟩
          have hne : fid ≠ fid0 := fun he => hl.1 (he ▸ h2)
          rw [hfeeds1, lookupKV_insert_ne _ hne] at hfs
          exact hfs
      · intro fid hfid
        have hne : fid ≠ fid0 := fun he => hfid (he ▸ List.mem_cons_self fid0 rest)
        have hnr : fid ∉ rest := fun hr => hfid (List.mem_cons_of_mem _ hr)
        rw [ihfr fid hnr, hfeeds1, lookupKV_insert_ne _ hne]

theorem usFold_lp (a b : Int) (hab : a ≠ b) :
    ∀ (l : List Nat), l.Nodup → ∀ (st st' : DatabaseInner),
    List.foldlM (usStep a b) st l = some st' →
    (∀ f ∈ l, ∀ v, lookupKV st.lp_map (a, f) = some v →
      lookupKV st'.lp_map (b, f) = some v ∧ lookupKV st'.lp_map (a, f) = none) ∧
    (∀ s f, f ∉ l → lookupKV st'.lp_map (s, f) = lookupKV st.lp_map (s, f)) := by
  intro l
  induction l with
  | nil =>
    intro _ st st' h
    simp only [List.foldlM_nil] at h
    injection h with h2
    rw [← h2]
    exact ⟨by simp, fun _ _ _ => rfl⟩
  | cons fid0 rest ih =>
    intro hl st st' h
    rw [List.nodup_cons] at hl
    rw [List.foldlM_cons] at h
    rcases hs : usStep a b st fid0 with _ | st1
    · rw [hs] at h
      exact absurd h (by simp)
    · rw [hs] at h
      simp only [Option.bind_eq_bind, Option.some_bind] at h
      obtain ⟨ihcarry, ihfr⟩ := ih hl.2 st1 st' h
      constructor
      · intro f hf v hv
        rcases List.mem_cons.mp hf with h1 | h2
        · subst h1
          obtain ⟨hb1, ha1⟩ := usStep_lp_carry hab hs hv
          rw [ihfr b f hl.1, ihfr a f hl.1]
          exact ⟨hb1, ha1⟩
        · have hne : f ≠ fid0 := fun he => hl.1 (he ▸ h2)
          have hva : lookupKV st1.lp_map (a, f) = some v := by
            rw [usStep_lp_frame hs a f (fun he => hne (congrArg Prod.snd he))
              (fun he => hne (congrArg Prod.snd he))]
            exact hv
          exact ihcarry f h2 v hva
      · intro s f hf
        have hne : f ≠ fid0 := fun he => hf (he ▸ List.mem_cons_self fid0 rest)
        have hnr : f ∉ rest := fun hr => hf (List.mem_cons_of_mem _ hr)
        rw [ihfr s f hnr,
          usStep_lp_frame hs s f (fun he => hne (congrArg Prod.snd he))
            (fun he => hne (congrArg Prod.snd he))]

/-- Claim C3 (amended): for distinct subscribers `a` (from) and `b` (to)
where `a` follows at least one feed, `update_subscriber` *replaces* `b`'s
followed-feed set with `a`'s previous set (it does not merge: `b`'s prior
memberships disappear from the index), replaces `a` with `b` in the
subscriber set of every feed `a` followed, carries the link-preview
entries keyed by `a` on those feeds over to `b`, and removes `a` from the
index. -/
theorem update_subscriber_migrates (st : DatabaseInner) (a b : Int)
    (st' : DatabaseInner) (fs : Finset Nat)
    (hab : a ≠ b) (hfs : lookupKV st.subscribers a = some fs) (hne : fs.Nonempty)
    (h : updateSubscriberFn st a b = some st') :
    lookupKV st'.subscribers b = some fs ∧
    lookupKV st'.subscribers a = none ∧
    (∀ f ∈ fs, ∃ feed, lookupKV st.feeds f = some feed ∧
      lookupKV st'.feeds f
        = some { feed with subscribers := insert b (feed.subscribers.erase a) }) ∧
    (∀ f, f ∉ fs → lookupKV st'.feeds f = lookupKV st.feeds f) ∧
    (∀ f ∈ fs, ∀ v, lookupKV st.lp_map (a, f) = some v →
      lookupKV st'.lp_map (b, f) = some v ∧ lookupKV st'.lp_map (a, f) = none) := by
  unfold updateSubscriberFn at h
  rw [hfs] at h
  dsimp only at h
  rcases hfold : (finSort fs).foldlM (usStep a b)
      { st with subscribers := eraseKV a st.subscribers } with _ | st2
  · rw [hfold] at h
    exact absurd h (by simp)
  · rw [hfold] at h
    simp only [Option.map_some'] at h
    injection h with h2
    obtain ⟨hsubs2, hwc2, hmem, hfr⟩ := usFold_char a b (finSort fs)
      (finSort_nodup fs) _ st2 hfold
    obtain ⟨hcarry, hlpfr⟩ := usFold_lp a b hab (finSort fs)
      (finSort_nodup fs) _ st2 hfold
    rw [← h2]
    dsimp only
    refine ⟨?_, ?_, ?_, ?_, ?_⟩
    · exact lookupKV_insert_self _ _ _
    · rw [lookupKV_insert_ne _ hab, hsubs2]
      exact lookupKV_erase_self _ _
    · intro f hf
      obtain ⟨feed, hl1, hl2⟩ := hmem f ((mem_finSort fs f).mpr hf)
      exact ⟨feed, hl1, hl2⟩
    · intro f hf
      exact hfr f (fun hm => hf ((mem_finSort fs f).mp hm))
    · intro f hf v hv
      exact hcarry f ((mem_finSort fs f).mpr hf) v hv

/-- Claim C3 counterexample: in `stC3` subscriber 1 follows feed 10 and
subscriber 2 follows feed 20; after `update_subscriber 1 2` the index
entry of 2 is `{10}`, not the union `{10} ∪ {20}` the claim requires —
2's own subscription to feed 20 is dropped from the index. -/
theorem update_subscriber_migrates_cex :
    updateSubscriberFn stC3 1 2 = some stAfterC3 ∧
    lookupKV stC3.subscribers 2 = some {20} ∧
    lookupKV stAfterC3.subscribers 2 = some {10} ∧
    (({10} : Finset Nat) ≠ {10} ∪ {20}) := by
  refine ⟨by decide, by decide, by decide, by decide⟩

theorem update_subscriber_migrates_witness :
    ((1 : Int) ≠ 2) ∧ lookupKV stC3.subscribers 1 = some {10} ∧
    updateSubscriberFn stC3 1 2 = some stAfterC3 ∧
    lookupKV stAfterC3.subscribers 2 = some {10} :=
  ⟨by decide, by decide, by decide,
   (update_subscriber_migrates stC3 1 2 stAfterC3 {10} (by decide) (by decide)
     (by decide) (by decide)).1⟩

theorem lpInv_congr {st st' : DatabaseInner} (hf : st'.feeds = st.feeds)
    (hl : st'.lp_map = st.lp_map) (h : LpInv st) : LpInv st' := by
  intro s f v hv
  rw [hl] at hv
  obtain ⟨feed, h1, h2⟩ := h s f v hv
  exact ⟨feed, by rw [hf]; exact h1, h2⟩

theorem subFeedBase_subscribers (getHash : String → Nat) (st : DatabaseInner)
    (link : String) (rss : RSS) :
    (subFeedBase getHash st link rss).subscribers = feedSubs st (getHash link) := by
  unfold subFeedBase feedSubs
  cases lookupKV st.feeds (getHash link) <;> rfl

theorem feedSubs_some {st : DatabaseInner} {f : Nat} {feed : Feed}
    (h : lookupKV st.feeds f = some feed) : feedSubs st f = feed.subscribers := by
  unfold feedSubs
  rw [h]

theorem mem_feedSubs_lookup {st : DatabaseInner} {f : Nat} {s : Int}
    (h : s ∈ feedSubs st f) :
    ∃ feed, lookupKV st.feeds f = some feed ∧ s ∈ feed.subscribers := by
  unfold feedSubs at h
  rcases hl : lookupKV st.feeds f with _ | feed
  · rw [hl] at h
    simp at h
  · rw [hl] at h
    exact ⟨feed, rfl, h⟩

theorem lpInv_subscribe (getHash : String → Nat) (st : DatabaseInner) (s : Int)
    (link : String) (rss : RSS) (lp : LinkPreview) (h : LpInv st) :
    LpInv (subscribeFn getHash st s link rss lp).2 := by
  by_cases hc : getHash link ∈ (lookupKV st.subscribers s).getD ∅ ∧
      lookupKV st.lp_map (s, getHash link) = some lp
  · rw [subscribeFn_err_shape getHash st s link rss lp hc]
    exact lpInv_congr rfl rfl h
  · rw [subscribeFn_ok_shape getHash st s link rss lp hc]
    intro s1 f1 v hv
    dsimp only at hv ⊢
    by_cases hks : ((s1 : Int), (f1 : Nat)) = (s, getHash link)
    · have hs1 : s1 = s := congrArg Prod.fst hks
      have hf1 : f1 = getHash link := congrArg Prod.snd hks
      subst hs1
      subst hf1
      refine ⟨_, lookupKV_insert_self _ _ _, ?_⟩
      dsimp only
      exact Finset.mem_insert_self _ _
    · rw [lookupKV_insert_ne _ hks] at hv
      obtain ⟨feed, hfeed, hmem⟩ := h s1 f1 v hv
      by_cases hf1 : f1 = getHash link
      · subst hf1
        refine ⟨_, lookupKV_insert_self _ _ _, ?_⟩
        dsimp only
        rw [subFeedBase_subscribers, feedSubs_some hfeed]
        exact Finset.mem_insert_of_mem hmem
      · rw [lookupKV_insert_ne _ hf1]
        exact ⟨feed, hfeed, hmem⟩

theorem lpInv_unsubscribe (getHash : String → Nat) (st : DatabaseInner) (s : Int)
    (link : String) (h : LpInv st) : LpInv (unsubscribeFn getHash st s link).2 := by
  rcases hs : lookupKV st.subscribers s with _ | fs
  · rw [unsubscribeFn_no_idx getHash st s link hs]
    exact h
  · by_cases hfid : getHash link ∈ fs
    · rcases hfeed : lookupKV st.feeds (getHash link) with _ | feed
      · obtain ⟨-, hfe, hlp, -⟩ :=
          unsubscribeFn_bad_feed getHash st s link fs hs hfid (Or.inl hfeed)
        exact lpInv_congr hfe hlp h
      · by_cases hmem : s ∈ feed.subscribers
        · rw [unsubscribeFn_ok getHash st s link fs feed hs hfid hfeed hmem]
          intro s1 f1 v hv
          unfold unsubSuccessState at hv ⊢
          dsimp only at hv ⊢
          have hks : ((s1 : Int), (f1 : Nat)) ≠ (s, getHash link) := by
            intro he
            rw [he, lookupKV_erase_self] at hv
            exact absurd hv (by simp)
          rw [lookupKV_erase_ne hks] at hv
          obtain ⟨feed1, hfeed1, hmem1⟩ := h s1 f1 v hv
          by_cases hf1 : f1 = getHash link
          · subst hf1
            have hfeq : feed1 = feed := by
              rw [hfeed] at hfeed1
              injection hfeed1 with h2
              exact h2.symm
            subst hfeq
            have hs1 : s1 ≠ s := by
              intro he
              exact hks (by rw [he])
            by_cases hcf : feed1.subscribers.erase s = ∅
            · exact absurd (hcf ▸ Finset.mem_erase.mpr ⟨hs1, hmem1⟩) (by simp)
            · rw [if_neg hcf]
              refine ⟨_, lookupKV_insert_self _ _ _, ?_⟩
              dsimp only
              exact Finset.mem_erase.mpr ⟨hs1, hmem1⟩
          · by_cases hcf : feed.subscribers.erase s = ∅
            · rw [if_pos hcf, lookupKV_erase_ne hf1]
              exact ⟨feed1, hfeed1, hmem1⟩
            · rw [if_neg hcf, lookupKV_insert_ne _ hf1]
              exact ⟨feed1, hfeed1, hmem1⟩
        · obtain ⟨-, hfe, hlp, -⟩ := unsubscribeFn_bad_feed getHash st s link fs hs hfid
            (Or.inr ⟨feed, hfeed, hmem⟩)
          exact lpInv_congr hfe hlp h
    · rw [unsubscribeFn_not_in_idx getHash st s link fs hs hfid]
      exact h

theorem lpInv_unsub_foldl (getHash : String → Nat) (s : Int) :
    ∀ (l : List Feed) (st : DatabaseInner), LpInv st →
    LpInv (l.foldl (fun st2 feed => (unsubscribeFn getHash st2 s feed.link).2) st) := by
  intro l
  induction l with
  | nil => intro st h; exact h
  | cons feed rest ih =>
    intro st h
    rw [List.foldl_cons]
    exact ih _ (lpInv_unsubscribe getHash st s feed.link h)

theorem lpInv_delete (getHash : String → Nat) (st : DatabaseInner) (s : Int)
    (st' : DatabaseInner) (h : deleteSubscriberFn getHash st s = some st')
    (hinv : LpInv st) : LpInv st' := by
  unfold deleteSubscriberFn at h
  rcases hg : getSubscribedFeeds st s with _ | og
  · rw [hg] at h
    exact absurd h (by simp)
  · rw [hg] at h
    rcases og with _ | feedList
    · injection h with h2
      rw [← h2]
      exact hinv
    · injection h with h2
      rw [← h2]
      exact lpInv_unsub_foldl getHash s feedList st hinv

theorem lpInv_usStep {a b : Int} {st st' : DatabaseInner} {fid : Nat}
    (h : usStep a b st fid = some st') (hinv : LpInv st) : LpInv st' := by
  unfold usStep at h
  rcases hf : lookupKV st.feeds fid with _ | feed
  · rw [hf] at h
    exact absurd h (by simp)
  · rw [hf] at h
    dsimp only at h
    rcases hlp : lookupKV st.lp_map (a, fid) with _ | v0
    · rw [hlp] at h
      injection h with h2
      rw [← h2]
      intro s1 f1 v hv
      dsimp only at hv ⊢
      obtain ⟨feed1, hfeed1, hmem1⟩ := hinv s1 f1 v hv
      by_cases hf1 : f1 = fid
      · subst hf1
        have hfeq : feed1 = feed := by
          rw [hf] at hfeed1
          injection hfeed1 with h3
          exact h3.symm
        subst hfeq
        refine ⟨_, lookupKV_insert_self _ _ _, ?_⟩
        dsimp only
        have hs1a : s1 ≠ a := by
          intro he
          rw [he] at hv
          rw [hv] at hlp
          exact absurd hlp (by simp)
        exact Finset.mem_insert_of_mem (Finset.mem_erase.mpr ⟨hs1a, hmem1⟩)
      · rw [lookupKV_insert_ne _ hf1]
        exact ⟨feed1, hfeed1, hmem1⟩
    · rw [hlp] at h
      injection h with h2
      rw [← h2]
      intro s1 f1 v hv
      dsimp only at hv ⊢
      by_cases hkb : ((s1 : Int), (f1 : Nat)) = (b, fid)
      · have hf1 : f1 = fid := congrArg Prod.snd hkb
        subst hf1
        refine ⟨_, lookupKV_insert_self _ _ _, ?_⟩
        dsimp only
        have hs1 : s1 = b := congrArg Prod.fst hkb
        subst hs1
        exact Finset.mem_insert_self s1 _
      · rw [lookupKV_insert_ne _ hkb] at hv
        have hka : ((s1 : Int), (f1 : Nat)) ≠ (a, fid) := by
          intro he
          rw [he, lookupKV_erase_self] at hv
          exact absurd hv (by simp)
        rw [lookupKV_erase_ne hka] at hv
        obtain ⟨feed1, hfeed1, hmem1⟩ := hinv s1 f1 v hv
        by_cases hf1 : f1 = fid
        · subst hf1
          have hfeq : feed1 = feed := by
            rw [hf] at hfeed1
            injection hfeed1 with h3
            exact h3.symm
          subst hfeq
          refine ⟨_, lookupKV_insert_self _ _ _, ?_⟩
          dsimp only
          have hs1a : s1 ≠ a := fun he => hka (by rw [he])
          exact Finset.mem_insert_of_mem (Finset.mem_erase.mpr ⟨hs1a, hmem1⟩)
        · rw [lookupKV_insert_ne _ hf1]
          exact ⟨feed1, hfeed1, hmem1⟩

theorem lpInv_updateSubscriber (st : DatabaseInner) (a b : Int)
    (st' : DatabaseInner) (h : updateSubscriberFn st a b = some st')
    (hinv : LpInv st) : LpInv st' := by
  unfold updateSubscriberFn at h
  rcases hfs : lookupKV st.subscribers a with _ | fs
  · rw [hfs] at h
    exact absurd h (by simp)
  · rw [hfs] at h
    dsimp only at h
    rcases hfold : (finSort fs).foldlM (usStep a b)
        { st with subscribers := eraseKV a st.subscribers } with _ | st2
    · rw [hfold] at h
      exact absurd h (by simp)
    · rw [hfold] at h
      simp only [Option.map_some'] at h
      injection h with h2
      rw [← h2]
      have hst2 : LpInv st2 := by
        refine foldlM_some_preserve (usStep a b) LpInv ?_ (finSort fs) _ st2 hfold ?_
        · intro x y x' hs hp
          exact lpInv_usStep hs hp
        · exact lpInv_congr rfl rfl hinv
      exact lpInv_congr rfl rfl hst2

theorem runOp_preserves_lpInv (getHash : String → Nat) (st : DatabaseInner)
    (op : Op) (st' : DatabaseInner) (h : runOp getHash st op = some st')
    (hinv : LpInv st) : LpInv st' := by
  cases op with
  | sub s link rss lp =>
    unfold runOp at h
    injection h with h2
    rw [← h2]
    exact lpInv_subscribe getHash st s link rss lp hinv
  | unsub s link =>
    unfold runOp at h
    injection h with h2
    rw [← h2]
    exact lpInv_unsubscribe getHash st s link hinv
  | delS s =>
    unfold runOp at h
    exact lpInv_delete getHash st s st' h hinv
  | updS a b =>
    unfold runOp at h
    exact lpInv_updateSubscriber st a b st' h hinv

theorem run_preserves_lpInv (getHash : String → Nat) :
    ∀ (ops : List Op) (st st' : DatabaseInner), run getHash st ops = some st' →
    LpInv st → LpInv st' := by
  intro ops
  induction ops with
  | nil =>
    intro st st' h hinv
    unfold run at h
    injection h with h2
    rw [← h2]
    exact hinv
  | cons op rest ih =>
    intro st st' h hinv
    unfold run at h
    rcases h1 : runOp getHash st op with _ | st1
    · rw [h1] at h
      exact absurd h (by simp)
    · rw [h1] at h
      exact ih st1 st' h (runOp_preserves_lpInv getHash st op st1 h1 hinv)

/-- Claim C9: after any sequence of store operations executed from the
empty store (without panicking), every key `(s, f)` of the link-preview
map is a live subscription — the feed `f` exists and `s` is in its
subscriber set. -/
theorem lp_entries_live (getHash : String → Nat) (ops : List Op)
    (st' : DatabaseInner) (h : run getHash emptyDB ops = some st') : LpInv st' := by
  refine run_preserves_lpInv getHash ops emptyDB st' h ?_
  intro s f v hv
  exact absurd hv (by simp [emptyDB, lookupKV])

theorem lp_entries_live_witness :
    run demoHash emptyDB opsW9 = some stW9 ∧
    lookupKV stW9.lp_map (1, 1) = some LinkPreview.On ∧
    (∃ feed, lookupKV stW9.feeds 1 = some feed ∧ (1 : Int) ∈ feed.subscribers) :=
  ⟨by decide, by decide,
   lp_entries_live demoHash opsW9 stW9 (by decide) 1 1 LinkPreview.On (by decide)⟩

theorem subIdx_some {st : DatabaseInner} {s : Int} {fs : Finset Nat}
    (h : lookupKV st.subscribers s = some fs) : subIdx st s = fs := by
  unfold subIdx
  rw [h]
  rfl

theorem subIdx_none {st : DatabaseInner} {s : Int}
    (h : lookupKV st.subscribers s = none) : subIdx st s = ∅ := by
  unfold subIdx
  rw [h]
  rfl

theorem getD_insert_self {κ α : Type} [DecidableEq κ] (l : List (κ × α))
    (k : κ) (v d : α) : (lookupKV (insertKV k v l) k).getD d = v := by
  rw [lookupKV_insert_self]
  rfl

theorem consistent_subscribe (getHash : String → Nat) (st : DatabaseInner)
    (s : Int) (link : String) (rss : RSS) (lp : LinkPreview) (h : Consistent st) :
    Consistent (subscribeFn getHash st s link rss lp).2 := by
  by_cases hc : getHash link ∈ (lookupKV st.subscribers s).getD ∅ ∧
      lookupKV st.lp_map (s, getHash link) = some lp
  · rcases hlk : lookupKV st.subscribers s with _ | old0
    · rw [hlk] at hc
      simp at hc
    · rw [subscribeFn_err_shape getHash st s link rss lp hc]
      dsimp only
      have hval : ((lookupKV st.subscribers s).getD ∅) ∪ {getHash link} = old0 := by
        rw [hlk]
        show old0 ∪ {getHash link} = old0
        refine Finset.union_eq_left.mpr (Finset.singleton_subset_iff.mpr ?_)
        have := hc.1
        rw [hlk] at this
        exact this
      rw [hval]
      intro s1 f1
      have hfs : feedSubs { st with subscribers := insertKV s old0 st.subscribers } f1
          = feedSubs st f1 := rfl
      have hsi : subIdx { st with subscribers := insertKV s old0 st.subscribers } s1
          = subIdx st s1 := by
        by_cases hss : s1 = s
        · subst hss
          unfold subIdx
          dsimp only
          rw [lookupKV_insert_self, hlk]
        · unfold subIdx
          dsimp only
          rw [lookupKV_insert_ne _ hss]
      rw [hfs, hsi]
      exact h s1 f1
  · rw [subscribeFn_ok_shape getHash st s link rss lp hc]
    have hfs2 : feedSubs
        { feeds := insertKV (getHash link)
                     { subFeedBase getHash st link rss with
                       subscribers := insert s (subFeedBase getHash st link rss).subscribers }
                     st.feeds,
          subscribers := insertKV s
                           (((lookupKV st.subscribers s).getD ∅) ∪ {getHash link})
                           st.subscribers,
          lp_map := insertKV (s, getHash link) lp st.lp_map,
          writeCount := st.writeCount + 1 } (getHash link)
        = insert s (feedSubs st (getHash link)) := by
      rw [feedSubs_some (lookupKV_insert_self st.feeds (getHash link)
        { subFeedBase getHash st link rss with
          subscribers := insert s (subFeedBase getHash st link rss).subscribers })]
      dsimp only
      rw [subFeedBase_subscribers]
    have hfs1 : ∀ f1, f1 ≠ getHash link → feedSubs
        { feeds := insertKV (getHash link)
                     { subFeedBase getHash st link rss with
                       subscribers := insert s (subFeedBase getHash st link rss).subscribers }
                     st.feeds,
          subscribers := insertKV s
                           (((lookupKV st.subscribers s).getD ∅) ∪ {getHash link})
                           st.subscribers,
          lp_map := insertKV (s, getHash link) lp st.lp_map,
          writeCount := st.writeCount + 1 } f1 = feedSubs st f1 := by
      intro f1 hff
      unfold feedSubs
      dsimp only
      rw [lookupKV_insert_ne _ hff]
    have hsi2 : subIdx
        { feeds := insertKV (getHash link)
                     { subFeedBase getHash st link rss with
                       subscribers := insert s (subFeedBase getHash st link rss).subscribers }
                     st.feeds,
          subscribers := insertKV s
                           (((lookupKV st.subscribers s).getD ∅) ∪ {getHash link})
                           st.subscribers,
          lp_map := insertKV (s, getHash link) lp st.lp_map,
          writeCount := st.writeCount + 1 } s
        = (subIdx st s) ∪ {getHash link} := by
      unfold subIdx
      dsimp only
      rw [lookupKV_insert_self]
      rfl
    have hsi1 : ∀ x, x ≠ s → subIdx
        { feeds := insertKV (getHash link)
                     { subFeedBase getHash st link rss with
                       subscribers := insert s (subFeedBase getHash st link rss).subscribers }
                     st.feeds,
          subscribers := insertKV s
                           (((lookupKV st.subscribers s).getD ∅) ∪ {getHash link})
                           st.subscribers,
          lp_map := insertKV (s, getHash link) lp st.lp_map,
          writeCount := st.writeCount + 1 } x = subIdx st x := by
      intro x hx
      unfold subIdx
      dsimp only
      rw [lookupKV_insert_ne _ hx]
    intro s1 f1
    by_cases hss : s1 = s
    · subst hss
      by_cases hff : f1 = getHash link
      · subst hff
        rw [hfs2, hsi2]
        exact iff_of_true (Finset.mem_insert_self _ _)
          (Finset.mem_union_right _ (Finset.mem_singleton_self _))
      · rw [hfs1 f1 hff, hsi2, Finset.mem_union, Finset.mem_singleton]
        constructor
        · intro hm
          exact Or.inl ((h s1 f1).mp hm)
        · rintro (hm | he)
          · exact (h s1 f1).mpr hm
          · exact absurd he hff
    · by_cases hff : f1 = getHash link
      · subst hff
        rw [hfs2, hsi1 s1 hss, Finset.mem_insert]
        constructor
        · rintro (he | hm)
          · exact absurd he hss
          · exact (h s1 _).mp hm
        · intro hm
          exact Or.inr ((h s1 _).mpr hm)
      · rw [hfs1 f1 hff, hsi1 s1 hss]
        exact h s1 f1

theorem consistent_unsubscribe (getHash : String → Nat) (st : DatabaseInner)
    (s : Int) (link : String) (h : Consistent st) :
    Consistent (unsubscribeFn getHash st s link).2 := by
  rcases hs : lookupKV st.subscribers s with _ | fs
  · rw [unsubscribeFn_no_idx getHash st s link hs]
    exact h
  · by_cases hfid : getHash link ∈ fs
    · have hsfid : getHash link ∈ subIdx st s := by rw [subIdx_some hs]; exact hfid
      obtain ⟨feed, hfeed, hmem⟩ := mem_feedSubs_lookup ((h s (getHash link)).mpr hsfid)
      rw [unsubscribeFn_ok getHash st s link fs feed hs hfid hfeed hmem]
      have hsi2 : subIdx (unsubSuccessState st s (getHash link) fs feed) s
          = fs.erase (getHash link) := by
        unfold unsubSuccessState subIdx
        dsimp only
        by_cases hcl : fs.erase (getHash link) = ∅
        · rw [if_pos hcl, lookupKV_erase_self, hcl]
          rfl
        · rw [if_neg hcl, lookupKV_insert_self]
          rfl
      have hsi1 : ∀ x, x ≠ s →
          subIdx (unsubSuccessState st s (getHash link) fs feed) x = subIdx st x := by
        intro x hx
        unfold unsubSuccessState subIdx
        dsimp only
        by_cases hcl : fs.erase (getHash link) = ∅
        · rw [if_pos hcl, lookupKV_erase_ne hx]
        · rw [if_neg hcl, lookupKV_insert_ne _ hx]
      have hfs2 : feedSubs (unsubSuccessState st s (getHash link) fs feed) (getHash link)
          = feed.subscribers.erase s := by
        unfold unsubSuccessState feedSubs
        dsimp only
        by_cases hcf : feed.subscribers.erase s = ∅
        · rw [if_pos hcf, lookupKV_erase_self, hcf]
        · rw [if_neg hcf, lookupKV_insert_self]
      have hfs1 : ∀ f, f ≠ getHash link →
          feedSubs (unsubSuccessState st s (getHash link) fs feed) f = feedSubs st f := by
        intro f hf
        unfold unsubSuccessState feedSubs
        dsimp only
        by_cases hcf : feed.subscribers.erase s = ∅
        · rw [if_pos hcf, lookupKV_erase_ne hf]
        · rw [if_neg hcf, lookupKV_insert_ne _ hf]
      intro s1 f1
      by_cases hss : s1 = s
      · subst hss
        by_cases hff : f1 = getHash link
        · subst hff
          rw [hfs2, hsi2]
          exact iff_of_false (Finset.not_mem_erase _ _) (Finset.not_mem_erase _ _)
        · rw [hfs1 f1 hff, hsi2, Finset.mem_erase]
          constructor
          · intro hm
            refine ⟨hff, ?_⟩
            rw [← subIdx_some hs]
            exact (h s1 f1).mp hm
          · rintro ⟨-, hm⟩
            refine (h s1 f1).mpr ?_
            rw [subIdx_some hs]
            exact hm
      · by_cases hff : f1 = getHash link
        · subst hff
          rw [hfs2, hsi1 s1 hss, Finset.mem_erase]
          rw [← feedSubs_some hfeed]
          constructor
          · rintro ⟨-, hm⟩
            exact (h s1 _).mp hm
          · intro hm
            exact ⟨hss, (h s1 _).mpr hm⟩
        · rw [hfs1 f1 hff, hsi1 s1 hss]
          exact h s1 f1
    · rw [unsubscribeFn_not_in_idx getHash st s link fs hs hfid]
      exact h

theorem consistent_unsub_foldl (getHash : String → Nat) (s : Int) :
    ∀ (l : List Feed) (st : DatabaseInner), Consistent st →
    Consistent (l.foldl (fun st2 feed => (unsubscribeFn getHash st2 s feed.link).2) st) := by
  intro l
  induction l with
  | nil => intro st h; exact h
  | cons feed rest ih =>
    intro st h
    rw [List.foldl_cons]
    exact ih _ (consistent_unsubscribe getHash st s feed.link h)

theorem consistent_delete (getHash : String → Nat) (st : DatabaseInner) (s : Int)
    (st' : DatabaseInner) (h : deleteSubscriberFn getHash st s = some st')
    (hinv : Consistent st) : Consistent st' := by
  unfold deleteSubscriberFn at h
  rcases hg : getSubscribedFeeds st s with _ | og
  · rw [hg] at h
    exact absurd h (by simp)
  · rw [hg] at h
    rcases og with _ | feedList
    · injection h with h2
      rw [← h2]
      exact hinv
    · injection h with h2
      rw [← h2]
      exact consistent_unsub_foldl getHash s feedList st hinv

theorem consistent_updateSubscriber (st : DatabaseInner) (a b : Int)
    (st' : DatabaseInner) (hto : lookupKV st.subscribers b = none)
    (h : updateSubscriberFn st a b = some st') (hinv : Consistent st) :
    Consistent st' := by
  unfold updateSubscriberFn at h
  rcases hfs : lookupKV st.subscribers a with _ | fs
  · rw [hfs] at h
    exact absurd h (by simp)
  · rw [hfs] at h
    dsimp only at h
    rcases hfold : (finSort fs).foldlM (usStep a b)
        { st with subscribers := eraseKV a st.subscribers } with _ | st2
    · rw [hfold] at h
      exact absurd h (by simp)
    · rw [hfold] at h
      simp only [Option.map_some'] at h
      injection h with h2
      obtain ⟨hsubs2, hwc2, hmem, hfr⟩ := usFold_char a b (finSort fs)
        (finSort_nodup fs) _ st2 hfold
      have hab : a ≠ b := by
        intro he
        rw [he, hto] at hfs
        exact absurd hfs (by simp)
      have hfeeds' : st'.feeds = st2.feeds := by rw [← h2]
      have hsubs' : st'.subscribers = insertKV b fs st2.subscribers := by rw [← h2]
      have hsiB : subIdx st' b = fs := by
        unfold subIdx
        rw [hsubs', lookupKV_insert_self]
        rfl
      have hsiA : subIdx st' a = ∅ := by
        unfold subIdx
        rw [hsubs', lookupKV_insert_ne _ hab, hsubs2]
        show (lookupKV (eraseKV a st.subscribers) a).getD ∅ = ∅
        rw [lookupKV_erase_self]
        rfl
      have hsiX : ∀ x, x ≠ a → x ≠ b → subIdx st' x = subIdx st x := by
        intro x hxa hxb
        unfold subIdx
        rw [hsubs', lookupKV_insert_ne _ hxb, hsubs2]
        show (lookupKV (eraseKV a st.subscribers) x).getD ∅ = _
        rw [lookupKV_erase_ne hxa]
      have hfsIn : ∀ f ∈ fs, feedSubs st' f = insert b ((feedSubs st f).erase a) := by
        intro f hf
        obtain ⟨feed, hl1, hl2⟩ := hmem f ((mem_finSort fs f).mpr hf)
        have hl1' : lookupKV st.feeds f = some feed := hl1
        have hl2' : lookupKV st'.feeds f
            = some { feed with subscribers := insert b (feed.subscribers.erase a) } := by
          rw [hfeeds']
          exact hl2
        rw [feedSubs_some hl2', feedSubs_some hl1']
      have hfsOut : ∀ f, f ∉ fs → feedSubs st' f = feedSubs st f := by
        intro f hf
        have h3 := hfr f (fun hm => hf ((mem_finSort fs f).mp hm))
        unfold feedSubs
        rw [hfeeds', h3]
      have hbn : ∀ f, b ∉ feedSubs st f := by
        intro f hm
        have hx := (hinv b f).mp hm
        rw [subIdx_none hto] at hx
        exact absurd hx (by simp)
      intro s1 f1
      by_cases hsb : s1 = b
      · subst hsb
        by_cases hf1 : f1 ∈ fs
        · rw [hfsIn f1 hf1, hsiB]
          exact iff_of_true (Finset.mem_insert_self _ _) hf1
        · rw [hfsOut f1 hf1, hsiB]
          exact iff_of_false (hbn f1) hf1
      · by_cases hsa : s1 = a
        · subst hsa
          by_cases hf1 : f1 ∈ fs
          · rw [hfsIn f1 hf1, hsiA, Finset.mem_insert]
            constructor
            · rintro (he | hm)
              · exact absurd he hab
              · exact absurd hm (Finset.not_mem_erase _ _)
            · intro hm
              exact absurd hm (by simp)
          · rw [hfsOut f1 hf1, hsiA]
            constructor
            · intro hm
              have hx := (hinv s1 f1).mp hm
              rw [subIdx_some hfs] at hx
              exact absurd hx hf1
            · intro hm
              exact absurd hm (by simp)
        · by_cases hf1 : f1 ∈ fs
          · rw [hfsIn f1 hf1, hsiX s1 hsa hsb, Finset.mem_insert, Finset.mem_erase]
            constructor
            · rintro (he | ⟨-, hm⟩)
              · exact absurd he hsb
              · exact (hinv s1 f1).mp hm
            · intro hm
              exact Or.inr ⟨hsa, (hinv s1 f1).mpr hm⟩
          · rw [hfsOut f1 hf1, hsiX s1 hsa hsb]
            exact hinv s1 f1

theorem consistent_emptyDB : Consistent emptyDB := by
  intro s f
  have h1 : feedSubs emptyDB f = ∅ := rfl
  have h2 : subIdx emptyDB s = ∅ := rfl
  rw [h1, h2]
  simp

theorem run_ok_preserves_consistent (getHash : String → Nat) :
    ∀ (ops : List Op) (st st' : DatabaseInner), run getHash st ops = some st' →
    okRun getHash st ops = true → Consistent st → Consistent st' := by
  intro ops
  induction ops with
  | nil =>
    intro st st' h _ hinv
    unfold run at h
    injection h with h2
    rw [← h2]
    exact hinv
  | cons op rest ih =>
    intro st st' h hok hinv
    unfold run at h
    unfold okRun at hok
    rw [Bool.and_eq_true] at hok
    rcases h1 : runOp getHash st op with _ | st1
    · rw [h1] at h
      exact absurd h (by simp)
    · rw [h1] at h
      rw [h1] at hok
      refine ih st1 st' h hok.2 ?_
      cases op with
      | sub s link rss lp =>
        unfold runOp at h1
        injection h1 with h2
        rw [← h2]
        exact consistent_subscribe getHash st s link rss lp hinv
      | unsub s link =>
        unfold runOp at h1
        injection h1 with h2
        rw [← h2]
        exact consistent_unsubscribe getHash st s link hinv
      | delS s =>
        unfold runOp at h1
        exact consistent_delete getHash st s st1 h1 hinv
      | updS a b =>
        unfold runOp at h1
        have hto : lookupKV st.subscribers b = none := by
          have := hok.1
          simp only [Bool.not_eq_true'] at this
          rw [containsKV_eq_isSome] at this
          exact Option.not_isSome_iff_eq_none.mp (by rw [this]; simp)
        exact consistent_updateSubscriber st a b st1 hto h1 hinv

/-- Claim C2 (amended): the bidirectional consistency invariant — for every
feed stored in the registry and every subscriber, membership in the feed's
subscriber set coincides with membership of the feed id in the
subscriber-index entry — holds after every sequence of subscribe /
unsubscribe / delete_subscriber / update_subscriber calls from the empty
store, *provided* every `update_subscriber` call targets a subscriber that
currently follows no feed.  (Without that proviso the invariant fails: the
final `subscribers.insert(to, feeds)` overwrites `to`'s index entry.) -/
theorem consistency_invariant_holds (getHash : String → Nat) (ops : List Op)
    (st' : DatabaseInner) (h : run getHash emptyDB ops = some st')
    (hok : okRun getHash emptyDB ops = true) : ConsistentClaim st' := by
  have hc : Consistent st' :=
    run_ok_preserves_consistent getHash ops emptyDB st' h hok consistent_emptyDB
  intro f feed s hl
  have := hc s f
  rw [feedSubs_some hl] at this
  exact this

/-- Claim C2 counterexample: running `opsBad` (subscriber 1 → feed "a",
subscriber 2 → feed "bb", then `update_subscriber 1 2`) from the empty
store succeeds and yields `stBad`, in which feed id 2 stores `feedBB` with
subscriber 2 in its set while 2's subscriber-index entry does not contain
feed id 2 — refuting the claimed invariant for unrestricted sequences. -/
theorem consistency_invariant_cex :
    run demoHash emptyDB opsBad = some stBad ∧
    lookupKV stBad.feeds 2 = some feedBB ∧
    (2 : Int) ∈ feedBB.subscribers ∧
    (2 : Nat) ∉ subIdx stBad 2 ∧
    ¬ ConsistentClaim stBad := by
  refine ⟨by decide, by decide, by decide, by decide, ?_⟩
  intro hcc
  have := (hcc 2 feedBB 2 (by decide)).mp (by decide)
  exact absurd this (by decide)

theorem consistency_invariant_holds_witness :
    run demoHash emptyDB opsGood = some stGood ∧
    okRun demoHash emptyDB opsGood = true ∧
    ((2 : Int) ∈ feedGood.subscribers ↔ (1 : Nat) ∈ subIdx stGood 2) :=
  ⟨by decide, by decide,
   consistency_invariant_holds demoHash opsGood stGood (by decide) (by decide)
     1 feedGood 2 (by decide)⟩

theorem usFold_isSome (a b : Int) :
    ∀ (l : List Nat) (st : DatabaseInner),
    (∀ fid ∈ l, (lookupKV st.feeds fid).isSome) →
    (List.foldlM (usStep a b) st l).isSome := by
  intro l
  induction l with
  | nil =>
    intro st _
    simp [List.foldlM_nil]
  | cons fid0 rest ih =>
    intro st h
    rw [List.foldlM_cons]
    have h0 : (usStep a b st fid0).isSome :=
      usStep_isSome (h fid0 (List.mem_cons_self fid0 rest))
    rcases Option.isSome_iff_exists.mp h0 with ⟨st1, hst1⟩
    rw [hst1]
    simp only [Option.bind_eq_bind, Option.some_bind]
    refine ih st1 ?_
    intro fid hfid
    obtain ⟨feed0, hf0, hfeeds1, -, -⟩ := usStep_char hst1
    by_cases he : fid = fid0
    · subst he
      rw [hfeeds1, lookupKV_insert_self]
      rfl
    · rw [hfeeds1, lookupKV_insert_ne _ he]
      exact h fid (List.mem_cons_of_mem _ hfid)

/-- Claim C8: `update_subscriber` panics (models as `none`) exactly when
`from` is absent from the subscriber index — it does not degrade to a
no-op — and under the precondition that `from` follows at least one feed
and the bidirectional consistency invariant holds, both `unwrap` sites are
unreachable and the call is total. -/
theorem update_subscriber_totality (st : DatabaseInner) (a b : Int) :
    (lookupKV st.subscribers a = none → updateSubscriberFn st a b = none) ∧
    (∀ fs : Finset Nat, Consistent st → lookupKV st.subscribers a = some fs →
      fs.Nonempty → (updateSubscriberFn st a b).isSome) := by
  constructor
  · intro h
    unfold updateSubscriberFn
    rw [h]
  · intro fs hcons hfs hne
    unfold updateSubscriberFn
    rw [hfs]
    dsimp only
    have hsome : ((finSort fs).foldlM (usStep a b)
        { st with subscribers := eraseKV a st.subscribers }).isSome := by
      refine usFold_isSome a b (finSort fs) _ ?_
      intro fid hfid
      have hmem : fid ∈ subIdx st a := by
        rw [subIdx_some hfs]
        exact (mem_finSort fs fid).mp hfid
      obtain ⟨feed, hfl, -⟩ := mem_feedSubs_lookup ((hcons a fid).mpr hmem)
      have hfl' : lookupKV
          ({ st with subscribers := eraseKV a st.subscribers } : DatabaseInner).feeds fid
          = some feed := hfl
      rw [hfl']
      rfl
    rcases Option.isSome_iff_exists.mp hsome with ⟨st2, hst2⟩
    rw [hst2]
    rfl

theorem consistentB_sound (st : DatabaseInner) (h : consistentB st = true) :
    Consistent st := by
  unfold consistentB at h
  rw [Bool.and_eq_true] at h
  obtain ⟨h1, h2⟩ := h
  rw [List.all_eq_true] at h1 h2
  intro s f
  constructor
  · intro hm
    obtain ⟨feed, hfl, hfm⟩ := mem_feedSubs_lookup hm
    have hp := h1 (f, feed) (mem_of_lookupKV hfl)
    rw [List.all_eq_true] at hp
    exact of_decide_eq_true (hp s ((mem_finSort _ _).mpr hfm))
  · intro hm
    rcases hlk : lookupKV st.subscribers s with _ | fs
    · rw [subIdx_none hlk] at hm
      exact absurd hm (by simp)
    · have hq := h2 (s, fs) (mem_of_lookupKV hlk)
      rw [List.all_eq_true] at hq
      have hmf : f ∈ fs := by
        rw [subIdx_some hlk] at hm
        exact hm
      exact of_decide_eq_true (hq f ((mem_finSort _ _).mpr hmf))

theorem update_subscriber_totality_witness :
    updateSubscriberFn emptyDB 5 6 = none ∧
    (updateSubscriberFn stC8 3 4).isSome = true :=
  ⟨(update_subscriber_totality emptyDB 5 6).1 (by decide),
   (update_subscriber_totality stC8 3 4).2 {1}
     (consistentB_sound stC8 (by decide)) (by decide) (by decide)⟩

theorem openIdxAdd_getD (fid : Nat) :
    ∀ (sl : List Int) (m : List (Int × Finset Nat)) (x : Int),
    (lookupKV (openIdxAdd fid sl m) x).getD ∅
      = (lookupKV m x).getD ∅ ∪ (if x ∈ sl then {fid} else ∅) := by
  intro sl
  induction sl with
  | nil =>
    intro m x
    simp [openIdxAdd]
  | cons s0 rest ih =>
    intro m x
    show (lookupKV (openIdxAdd fid rest
        (insertKV s0 (((lookupKV m s0).getD ∅) ∪ {fid}) m)) x).getD ∅ = _
    rw [ih]
    by_cases hx : x = s0
    · subst hx
      rw [getD_insert_self]
      by_cases hr : x ∈ rest
      · rw [if_pos hr, if_pos (List.mem_cons_self x rest)]
        rw [Finset.union_assoc, Finset.union_self]
      · rw [if_neg hr, if_pos (List.mem_cons_self x rest)]
        rw [Finset.union_empty]
    · have hgd : (lookupKV (insertKV s0 (((lookupKV m s0).getD ∅) ∪ {fid}) m) x).getD ∅
          = (lookupKV m x).getD ∅ := by
        rw [lookupKV_insert_ne _ hx]
      rw [hgd]
      by_cases hr : x ∈ rest
      · rw [if_pos hr, if_pos (List.mem_cons_of_mem _ hr)]
      · rw [if_neg hr, if_neg (by simp [hx, hr])]

theorem openFold_feeds (getHash : String → Nat) :
    ∀ (L : List Feed) (acc : List (Nat × Feed) × List (Int × Finset Nat)),
    (L.map (fun f => getHash f.link)).Nodup →
    (∀ feed ∈ L,
      lookupKV (L.foldl (openFeedStep getHash) acc).1 (getHash feed.link) = some feed) ∧
    (∀ k, (∀ feed ∈ L, getHash feed.link ≠ k) →
      lookupKV (L.foldl (openFeedStep getHash) acc).1 k = lookupKV acc.1 k) ∧
    (∀ k v, lookupKV (L.foldl (openFeedStep getHash) acc).1 k = some v →
      v ∈ L ∨ lookupKV acc.1 k = some v) := by
  intro L
  induction L with
  | nil =>
    intro acc _
    refine ⟨by simp, fun k _ => rfl, fun k v h => Or.inr h⟩
  | cons f0 rest ih =>
    intro acc hnd
    rw [List.map_cons, List.nodup_cons] at hnd
    rw [List.foldl_cons]
    obtain ⟨ihA, ihB, ihC⟩ := ih (openFeedStep getHash acc f0) hnd.2
    refine ⟨?_, ?_, ?_⟩
    · intro feed hfeed
      rcases List.mem_cons.mp hfeed with h1 | h2
      · subst h1
        rw [ihB (getHash feed.link)
          (fun g hg he => hnd.1 (he ▸ List.mem_map.mpr ⟨g, hg, rfl⟩))]
        exact lookupKV_insert_self _ _ _
      · exact ihA feed h2
    · intro k hk
      rw [ihB k (fun g hg => hk g (List.mem_cons_of_mem _ hg))]
      show lookupKV (insertKV (getHash f0.link) f0 acc.1) k = lookupKV acc.1 k
      rw [lookupKV_insert_ne _ (fun he => hk f0 (List.mem_cons_self f0 rest) he.symm)]
    · intro k v h
      rcases ihC k v h with h1 | h2
      · exact Or.inl (List.mem_cons_of_mem _ h1)
      · by_cases he : getHash f0.link = k
        · subst he
          rw [show lookupKV (openFeedStep getHash acc f0).1 (getHash f0.link)
              = some f0 from lookupKV_insert_self _ _ _] at h2
          injection h2 with h3
          exact Or.inl (h3 ▸ List.mem_cons_self f0 rest)
        · rw [show lookupKV (openFeedStep getHash acc f0).1 k
              = lookupKV acc.1 k from lookupKV_insert_ne _ (fun hx => he hx.symm)] at h2
          exact Or.inr h2

theorem openFold_nodup (getHash : String → Nat) :
    ∀ (L : List Feed) (acc : List (Nat × Feed) × List (Int × Finset Nat)),
    NodupKeys acc.1 → NodupKeys (L.foldl (openFeedStep getHash) acc).1 := by
  intro L
  induction L with
  | nil => intro acc h; exact h
  | cons f0 rest ih =>
    intro acc h
    rw [List.foldl_cons]
    exact ih _ (nodupKeys_insert _ _ h)

theorem openFold_idx (getHash : String → Nat) :
    ∀ (L : List Feed) (acc : List (Nat × Feed) × List (Int × Finset Nat))
      (x : Int) (k : Nat),
    k ∈ (lookupKV (L.foldl (openFeedStep getHash) acc).2 x).getD ∅ ↔
      k ∈ (lookupKV acc.2 x).getD ∅ ∨
        ∃ feed ∈ L, getHash feed.link = k ∧ x ∈ feed.subscribers := by
  intro L
  induction L with
  | nil =>
    intro acc x k
    simp
  | cons f0 rest ih =>
    intro acc x k
    rw [List.foldl_cons, ih]
    show k ∈ (lookupKV (openIdxAdd (getHash f0.link)
        (finSort f0.subscribers) acc.2) x).getD ∅ ∨ _ ↔ _
    rw [openIdxAdd_getD, Finset.mem_union]
    constructor
    · rintro ((h1 | h2) | h3)
      · exact Or.inl h1
      · by_cases hx : x ∈ finSort f0.subscribers
        · rw [if_pos hx, Finset.mem_singleton] at h2
          exact Or.inr ⟨f0, List.mem_cons_self f0 rest,
            h2.symm, (mem_finSort _ _).mp hx⟩
        · rw [if_neg hx] at h2
          exact absurd h2 (by simp)
      · obtain ⟨feed, hf, hk, hs⟩ := h3
        exact Or.inr ⟨feed, List.mem_cons_of_mem _ hf, hk, hs⟩
    · rintro (h1 | ⟨feed, hf, hk, hs⟩)
      · exact Or.inl (Or.inl h1)
      · rcases List.mem_cons.mp hf with h4 | h5
        · subst h4
          refine Or.inl (Or.inr ?_)
          rw [if_pos ((mem_finSort _ _).mpr hs), Finset.mem_singleton]
          exact hk.symm
        · exact Or.inr ⟨feed, h5, hk, hs⟩

theorem lpFold_lookup :
    ∀ (l : List ((Int × Nat) × LinkPreview)), NodupKeys l →
    ∀ (acc : List ((Int × Nat) × LinkPreview)) (k : Int × Nat),
    lookupKV (l.foldl (fun m p => insertKV p.1 p.2 m) acc) k
      = (lookupKV l k).or (lookupKV acc k) := by
  intro l
  induction l with
  | nil =>
    intro _ acc k
    rfl
  | cons p0 rest ih =>
    intro hnd acc k
    unfold NodupKeys at hnd
    rw [List.map_cons, List.nodup_cons] at hnd
    rw [List.foldl_cons, ih hnd.2, lookupKV_cons]
    by_cases hk : p0.1 = k
    · subst hk
      have hrest : lookupKV rest p0.1 = none := by
        rw [← Option.not_isSome_iff_eq_none, ← containsKV_eq_isSome]
        intro hc
        unfold containsKV at hc
        rcases List.any_eq_true.mp hc with ⟨q, hq, hq2⟩
        exact hnd.1 (List.mem_map.mpr ⟨q, hq, of_decide_eq_true hq2⟩)
      rw [hrest, if_pos rfl, lookupKV_insert_self]
      rfl
    · rw [if_neg hk, lookupKV_insert_ne _ (fun he => hk he.symm)]

theorem wellKeyed_of_forall (getHash : String → Nat) (st : DatabaseInner)
    (h : ∀ p ∈ st.feeds, getHash p.2.link = p.1) : WellKeyed getHash st :=
  fun f feed hl => h (f, feed) (mem_of_lookupKV hl)

theorem saved_keys_nodup (getHash : String → Nat) (st : DatabaseInner)
    (hnf : NodupKeys st.feeds) (hwk : WellKeyed getHash st) :
    ((st.feeds.map Prod.snd).map (fun f => getHash f.link)).Nodup := by
  have heq : (st.feeds.map Prod.snd).map (fun f => getHash f.link)
      = st.feeds.map Prod.fst := by
    rw [List.map_map]
    apply List.map_congr_left
    intro p hp
    exact hwk p.1 p.2 (lookupKV_of_mem hnf hp)
  rw [heq]
  exact hnf

/-- Claim C6: `save` then `open` reproduces an equivalent store — the same
set of feed records (all fields included), a subscriber index equal to the
one reconstructed from the original feed records' subscriber sets, and the
same link-preview entries; comparisons are set/lookup equalities, not
sequence equalities.  The hypotheses (no duplicate map keys, registry keyed
by the hash of each record's link) hold in every state the Rust code
builds. -/
theorem save_open_roundtrip (getHash : String → Nat) (st : DatabaseInner)
    (hnf : NodupKeys st.feeds) (hnl : NodupKeys st.lp_map)
    (hwk : WellKeyed getHash st) :
    (∀ feed : Feed,
      feed ∈ (openStorage getHash (saveData st)).feeds.map Prod.snd ↔
        feed ∈ st.feeds.map Prod.snd) ∧
    (∀ (s : Int) (k : Nat),
      k ∈ subIdx (openStorage getHash (saveData st)) s ↔
        ∃ feed, lookupKV st.feeds k = some feed ∧ s ∈ feed.subscribers) ∧
    (∀ key : Int × Nat,
      lookupKV (openStorage getHash (saveData st)).lp_map key
        = lookupKV st.lp_map key) := by
  have hkeys := saved_keys_nodup getHash st hnf hwk
  obtain ⟨hA, hB, hC⟩ := openFold_feeds getHash (st.feeds.map Prod.snd)
    (([], []) : List (Nat × Feed) × List (Int × Finset Nat)) hkeys
  have hres : (openStorage getHash (saveData st)).feeds
      = ((st.feeds.map Prod.snd).foldl (openFeedStep getHash) ([], [])).1 := rfl
  have hres2 : (openStorage getHash (saveData st)).subscribers
      = ((st.feeds.map Prod.snd).foldl (openFeedStep getHash) ([], [])).2 := rfl
  have hnodup : NodupKeys (openStorage getHash (saveData st)).feeds := by
    rw [hres]
    exact openFold_nodup getHash _ _ (by constructor)
  refine ⟨?_, ?_, ?_⟩
  · intro feed
    constructor
    · intro hm
      rcases List.mem_map.mp hm with ⟨p, hp, hp2⟩
      have hlk : lookupKV (openStorage getHash (saveData st)).feeds p.1 = some p.2 :=
        lookupKV_of_mem hnodup hp
      rw [hres] at hlk
      rcases hC p.1 p.2 hlk with h1 | h2
      · rw [← hp2]
        exact h1
      · exact absurd h2 (by simp [lookupKV])
    · intro hm
      have hlk := hA feed hm
      have hmem := mem_of_lookupKV hlk
      rw [← hres] at hmem
      exact List.mem_map.mpr ⟨(getHash feed.link, feed), hmem, rfl⟩
  · intro s k
    have hidx := openFold_idx getHash (st.feeds.map Prod.snd)
      (([], []) : List (Nat × Feed) × List (Int × Finset Nat)) s k
    unfold subIdx
    rw [hres2, hidx]
    constructor
    · rintro (h1 | ⟨feed, hf, hk, hs⟩)
      · exact absurd h1 (by simp [lookupKV])
      · rcases List.mem_map.mp hf with ⟨p, hp, hp2⟩
        have hpl : lookupKV st.feeds p.1 = some p.2 :=
          lookupKV_of_mem hnf hp
        have hkey : getHash p.2.link = p.1 := hwk p.1 p.2 hpl
        refine ⟨feed, ?_, hs⟩
        rw [← hk, ← hp2, hkey, hp2]
        rw [hp2] at hpl
        exact hpl
    · rintro ⟨feed, hfl, hs⟩
      refine Or.inr ⟨feed, ?_, ?_, hs⟩
      · exact List.mem_map.mpr ⟨(k, feed), mem_of_lookupKV hfl, rfl⟩
      · exact hwk k feed hfl
  · intro key
    have hlp : (openStorage getHash (saveData st)).lp_map
        = (st.lp_map.map (fun p => (p.1.1, p.1.2, p.2))).foldl
            (fun m t => insertKV (t.1, t.2.1) t.2.2 m) [] := rfl
    rw [hlp, List.foldl_map]
    rw [show (fun (m : List ((Int × Nat) × LinkPreview)) (p : (Int × Nat) × LinkPreview)
        => insertKV (p.1.1, p.1.2) p.2 m)
        = (fun m p => insertKV p.1 p.2 m) from rfl]
    rw [lpFold_lookup st.lp_map hnl []]
    rcases lookupKV st.lp_map key with _ | v <;> rfl

theorem save_open_roundtrip_witness :
    NodupKeys stC6.feeds ∧ NodupKeys stC6.lp_map ∧
    (feedBB ∈ (openStorage demoHash (saveData stC6)).feeds.map Prod.snd ↔
      feedBB ∈ stC6.feeds.map Prod.snd) :=
  ⟨by decide, by decide,
   (save_open_roundtrip demoHash stC6 (by decide) (by decide)
     (wellKeyed_of_forall demoHash stC6 (by decide))).1 feedBB⟩
